import Mathlib

/-!
Verification development for the `application-compiler` repository.

Strings are modelled as `List Char` (`Str`), and each JavaScript helper of the
repository (`src/shared/operators.js`, `src/components/NestedLiveFile.js`,
`src/components/WatcherPool.js`, `src/compiler.js`) is translated into an
executable Lean definition operating on that representation.  Stateful methods
become explicit state-passing functions that also return the events they emit
(log messages, error-sink calls, scheduled timer callbacks).
-/

set_option maxRecDepth 10000

/-- Strings are lists of characters. -/
abbrev Str := List Char

/-- Coerce a Lean string literal into the `Str` model. -/
def strT (s : String) : Str := s.data

/-- Number of newline characters in a string: JS `(s.match \x2f\n\x2fg) || []).length`. -/
def nlCount (s : Str) : Nat := (s.filter (fun c => c = '\n')).length

/-- First occurrence of `sep` in `l`: returns the part strictly before the
occurrence and the part strictly after it (JS `indexOf` based scanning).
For a nonempty `sep` this finds the leftmost occurrence. -/
def firstSplit (sep : Str) : Str → Option (Str × Str)
  | [] => none
  | c :: rest =>
    if sep.isPrefixOf (c :: rest) then some ([], (c :: rest).drop sep.length)
    else match firstSplit sep rest with
      | some (b, a) => some (c :: b, a)
      | none => none

/-- JS `s.indexOf(sub) > -1` for a nonempty `sub`. -/
def containsSub (sub l : Str) : Bool := (firstSplit sub l).isSome

/-- Fueled worker for `splitOnL`; the fuel only serves termination and is
irrelevant once it exceeds the length of the string (see `splitOnAux_fuel`). -/
def splitOnAux (sep : Str) : Nat → Str → List Str
  | 0, l => [l]
  | fuel + 1, l =>
    match firstSplit sep l with
    | none => [l]
    | some (b, a) => b :: splitOnAux sep fuel a

/-- JS `l.split(sep)` for a nonempty separator. -/
def splitOnL (sep l : Str) : List Str := splitOnAux sep (l.length + 1) l

/-- JS template-literal rendering of a natural number (decimal digits), fueled. -/
def natDigitsAux : Nat → Nat → Str
  | 0, _ => []
  | fuel + 1, n =>
    if n < 10 then [Char.ofNat (48 + n)]
    else natDigitsAux fuel (n / 10) ++ [Char.ofNat (48 + n % 10)]

/-- Decimal rendering of a `Nat`, as embedded by `${lines}` in the source. -/
def natToStr (n : Nat) : Str := natDigitsAux (n + 1) n

/-- JS unary `+s` on a string of decimal digits. -/
def parseNatD (s : Str) : Nat := s.foldl (fun acc c => acc * 10 + (c.toNat - 48)) 0

/-! ## `src/shared/operators.js` -/

/-- `operators.path_to_chunks(path, ignore_trailing_slash, sys_root_prefix)`:
breaks a path into slash-separated hierarchy chunks. -/
def path_to_chunks (path : Str) (ignoreTrailing : Bool := false)
    (sysRoot : Str := strT ("_sys_root")) : List Str :=
  if path = strT ("./") then [strT ("."), []]
  else
    let path := if (strT ("/")).isSuffixOf path ∧ ¬ignoreTrailing then path.dropLast else path
    let path :=
      if ¬(strT ("./")).isPrefixOf path ∧ ¬(strT ("/")).isPrefixOf path then
        strT ("./") ++ path
      else path
    let chunks := splitOnL (strT ("/")) path
    match chunks with
    | [] => []
    | c :: rest => (if c = [] then sysRoot else c) :: rest

/-- `operators.chunks_to_path(chunks, sys_root_prefix)`: joins chunks back
into a path, converting the system-root marker back to the empty chunk. -/
def chunks_to_path (chunks : List Str) (sysRoot : Str := strT ("_sys_root")) : Str :=
  let chunks :=
    match chunks with
    | [] => []
    | c :: rest => (if c = sysRoot then [] else c) :: rest
  List.intercalate (strT ("/")) chunks

/-- `operators.absolute_file_path(path, context)`: resolves `path` (possibly
containing `.` and `..` chunks) against the containing directory `context`. -/
def absolute_file_path (path context : Str) : Str :=
  let chunks := path_to_chunks path false (strT ("."))
  let contextChunks := path_to_chunks context
  let ctx := chunks.dropLast.foldl
    (fun ctx current =>
      if current = strT ("..") then (if ctx.length > 1 then ctx.dropLast else ctx)
      else if current = strT (".") then ctx
      else ctx ++ [current])
    contextChunks
  chunks_to_path (ctx ++ [chunks.getLastD []])

/-! ## JavaScript object model

The source keeps `#file_store`, `files`, `paths` and `#watchers` in plain JS
objects.  They are modelled as association lists: assignment to an existing key
overwrites in place (preserving the key's position), assignment to a fresh key
appends, deletion filters. -/

/-- JS property read `o[k]` (`undefined` becomes `none`); keys are either
paths (strings) or line positions (numbers). -/
def objGet {K : Type} [DecidableEq K] {A : Type} (l : List (K × A)) (k : K) : Option A :=
  (l.find? (fun p => p.1 = k)).map (fun p => p.2)

/-- JS property write `o[k] = v`. -/
def objSet {K : Type} [DecidableEq K] {A : Type} (l : List (K × A)) (k : K) (v : A) :
    List (K × A) :=
  if (l.find? (fun p => p.1 = k)).isSome then
    l.map (fun p => if p.1 = k then (k, v) else p)
  else l ++ [(k, v)]

/-- JS `delete o[k]`. -/
def objDel {K : Type} [DecidableEq K] {A : Type} (l : List (K × A)) (k : K) : List (K × A) :=
  l.filter (fun p => ¬p.1 = k)

example : splitOnL (strT (")")) (strT ("a)b)")) = [strT ("a"), strT ("b"), []] := by decide

example : natToStr 120 = strT ("120") := by decide

example : parseNatD (strT ("120")) = 120 := by decide

example : absolute_file_path (strT ("./a.js")) (strT ("./app")) = strT ("./app/a.js") := by
  decide

example : absolute_file_path (strT ("../x/y.js")) (strT ("./app/sub")) = strT ("./app/x/y.js") := by
  decide

/-! ## `NestedLiveFile` — directive scanning (`_get_included_files`) -/

/-- `NestedLiveFile._valid_func_char(char)`: whether a character may appear in
an identifier immediately before the directive keyword. -/
def valid_func_char (c : Char) : Bool :=
  (strT ("ABCDEFGHIJKLMNOPQRSTUVWXYZabcdefghijklmnopqrstuvwxyz0123456789_.")).contains c

/-- `NestedLiveFile._parse_file_path(content)`: text up to the first `)` with
quote characters removed, then normalised through the path helpers. -/
def parse_file_path (content : Str) : Str :=
  let filePath := (splitOnL (strT (")")) content).headD []
  let filterChars : Str := [Char.ofNat 39, '"', Char.ofNat 96]
  let filePath := filePath.filter (fun c => ¬filterChars.contains c)
  chunks_to_path (path_to_chunks filePath)

/-- `NestedLiveFile._from_newline(content, true)`: the text on the current
line before the candidate call (after the last newline). -/
def from_newline_left (content : Str) : Str :=
  let parts := splitOnL (strT ("\n")) content
  parts.getLastD []

/-- One scanned include pointer value: resolved absolute path plus the
leading-whitespace width of the call line (`spacing`). -/
structure FileEntry where
  path : Str
  spacing : Nat
  deriving DecidableEq

/-- The error event emitted for an inclusion cycle: the node's own path plus
the offending resolved path and line from the error message. -/
structure ScanErr where
  at_path : Str
  loop_path : Str
  line : Nat
  deriving DecidableEq

/-- Configuration a `NestedLiveFile` scans with: directive keyword
(`#tags.inline_include`), containing directory (`#directory_path`),
ancestor-path set (`#forbidden`) and the node's own path (`#path`). -/
structure ScanCfg where
  tag : Str
  dir : Str
  forbidden : List Str
  selfPath : Str

/-- Running state of the `_get_included_files` loop. -/
structure ScanState where
  prev : Option Str
  offset : Nat
  files : List (Nat × FileEntry)
  paths : List Str
  errors : List ScanErr
  deriving DecidableEq

/-- The syntactic tests one candidate chunk must pass before the forbidden
check: nonempty `left`, a closing `)` in `current`, no identifier character
right before the call, a nonempty parsed path and no same-line comment
opener.  Returns the resolved absolute path and the spacing. -/
def callEntry (dir : Str) (left current : Str) : Option (Str × Nat) :=
  if left ≠ [] ∧ containsSub (strT (")")) current then
    let lastLeftChar := left.getLastD ' '
    let filePath := parse_file_path current
    if ¬valid_func_char lastLeftChar ∧ filePath.length > 0 then
      let leftContent := from_newline_left left
      let singleComment := containsSub (strT ("//")) leftContent
      let multiLeft := containsSub (strT ("/*")) leftContent
      let multiRight := ¬containsSub (strT ("*/")) leftContent
      let multiComment := multiLeft ∧ multiRight
      if ¬singleComment ∧ ¬multiComment then
        some (absolute_file_path filePath dir, leftContent.length)
      else none
    else none
  else none

/-- `paths[absolute_path] = true` on a JS object: record the key once,
membership is what the object is later consulted for. -/
def addPath (l : List Str) (p : Str) : List Str :=
  if l.contains p then l else l ++ [p]

/-- One iteration of the `_get_included_files` loop over the chunks obtained
by splitting on `keyword(`. -/
def stepScan (cfg : ScanCfg) (st : ScanState) (current : Str) : ScanState :=
  match st.prev with
  | none => { st with prev := some current }
  | some left =>
    let linesCount := nlCount left + 1
    let linePosition := st.offset + linesCount
    let st' :=
      match callEntry cfg.dir left current with
      | some (absolutePath, spacing) =>
        if cfg.forbidden.contains absolutePath then
          { st with errors :=
              st.errors ++ [(⟨cfg.selfPath, absolutePath, linePosition⟩ : ScanErr)] }
        else
          { st with
            paths := addPath st.paths absolutePath
            files := objSet st.files linePosition ⟨absolutePath, spacing⟩ }
      | none => st
    { st' with prev := some current, offset := st.offset + (linesCount - 1) }

/-- Initial state of the scanning loop. -/
def scanInit : ScanState := ⟨none, 0, [], [], []⟩

/-- `NestedLiveFile._get_included_files()` on explicit content: returns the
final loop state, whose `files`/`paths` fields are the method's result and
whose `errors` field collects the cycle reports sent to the error handler. -/
def scanContent (cfg : ScanCfg) (content : Str) : ScanState :=
  (splitOnL (cfg.tag ++ strT ("(")) content).foldl (stepScan cfg) scanInit

example :
    (scanContent ⟨strT ("include"), strT ("./app"), [], strT ("./app/i.js")⟩
      (strT ("q\ninclude('./a.js')"))).files =
      [(2, ⟨strT ("./app/a.js"), 0⟩)] := by decide

example :
    (scanContent ⟨strT ("include"), strT ("./app"), [], strT ("./app/i.js")⟩
      (strT ("x // include('./a.js')"))).files = [] := by decide

example :
    (scanContent ⟨strT ("include"), strT ("./app"), [], strT ("./app/i.js")⟩
      (strT ("my_include('./a.js')"))).files = [] := by decide

example :
    (scanContent ⟨strT ("include"), strT ("./app"), [strT ("./app/a.js")], strT ("./app/i.js")⟩
      (strT ("q\ninclude('./a.js')"))).errors =
      [⟨strT ("./app/i.js"), strT ("./app/a.js"), 2⟩] := by decide

/-! ## `NestedLiveFile` — reconciliation (`_recalibrate`) -/

/-- One entry of `#nested_pointers`: line position, resolved path, spacing. -/
structure NPointer where
  line : Nat
  path : Str
  spacing : Nat
  deriving DecidableEq

/-- `#file_store` keyed by path; the value is the instance's `pointers`
reference count (a JS number, so an `Int`). -/
abbrev Store := List (Str × Int)

/-- The filter verdict of the first reconciliation loop: a previous pointer
survives iff the new scan has a pointer at the same line resolving to the
same path. -/
def survivesScan (files : List (Nat × FileEntry)) (pt : NPointer) : Bool :=
  match objGet files pt.line with
  | some e => e.path = pt.path
  | none => false

/-- First loop of `_recalibrate`: filter old pointers, decrement the counts of
stale ones, destroy (and drop from the store) children whose count fell below
one while their path is absent from the fresh scan.  Returns the surviving
pointers, the updated store and the paths destroyed, in order. -/
def removeAux (files : List (Nat × FileEntry)) (paths : List Str) :
    List NPointer → Store → List NPointer × Store × List Str
  | [], store => ([], store, [])
  | pt :: tl, store =>
    if survivesScan files pt then
      let r := removeAux files paths tl store
      (pt :: r.1, r.2.1, r.2.2)
    else
      match objGet store pt.path with
      | some n =>
        let store' := objSet store pt.path (n - 1)
        if n - 1 < 1 ∧ ¬paths.contains pt.path then
          let r := removeAux files paths tl (objDel store' pt.path)
          (r.1, r.2.1, pt.path :: r.2.2)
        else
          removeAux files paths tl store'
      | none => removeAux files paths tl store

/-- Second loop of `_recalibrate`: for every scanned line position without a
surviving pointer, create the child instance if its path is new, increment its
count and append a pointer.  Returns the new pointers (in scan order), the
store, the freshly created paths and the `sort_pointers` flag. -/
def createAux (kept : List NPointer) :
    List (Nat × FileEntry) → Store → List NPointer × Store × List Str × Bool
  | [], store => ([], store, [], false)
  | (line, e) :: rest, store =>
    if (kept.find? (fun pt => pt.line = line)).isSome then
      createAux kept rest store
    else
      let sc :=
        match objGet store e.path with
        | none => (objSet store e.path 0, [e.path])
        | some _ => (store, ([] : List Str))
      let n := (objGet sc.1 e.path).getD 0
      let store₂ := objSet sc.1 e.path (n + 1)
      let r := createAux kept rest store₂
      ((⟨line, e.path, e.spacing⟩ : NPointer) :: r.1, r.2.1, sc.2 ++ r.2.2.1, true)

/-- Insert `pt` after all already-placed pointers with a smaller-or-equal
line, keeping the insertion stable. -/
def insertStable (pt : NPointer) : List NPointer → List NPointer
  | [] => [pt]
  | x :: xs => if x.line ≤ pt.line then x :: insertStable pt xs else pt :: x :: xs

/-- Stable insertion sort by line position, as JS `Array.prototype.sort` with
the comparator `a.line - b.line` behaves on these lists. -/
def sortPointers : List NPointer → List NPointer
  | [] => []
  | x :: xs => insertStable x (sortPointers xs)

/-- Result of one reconciliation pass. -/
structure RecalResult where
  pointers : List NPointer
  store : Store
  destroyed : List Str
  created : List Str
  deriving DecidableEq

/-- `NestedLiveFile._recalibrate()` on an explicit scan result: remove stale
pointers (destroying orphaned children), create pointers for new line
positions, and re-sort the pointer list if anything was inserted. -/
def recalibrate (files : List (Nat × FileEntry)) (paths : List Str)
    (old : List NPointer) (store : Store) : RecalResult :=
  let rm := removeAux files paths old store
  let cr := createAux rm.1 files rm.2.1
  let ptrs := rm.1 ++ cr.1
  ⟨if cr.2.2.2 then sortPointers ptrs else ptrs, cr.2.1, rm.2.2, cr.2.2.1⟩

/-- Number of pointers of `l` that reference path `p`. -/
def cntPtr (l : List NPointer) (p : Str) : Nat :=
  (l.filter (fun pt => pt.path = p)).length

example :
    recalibrate [(2, ⟨strT ("./a"), 0⟩), (5, ⟨strT ("./a"), 2⟩)] [strT ("./a")] [] [] =
      ⟨[⟨2, strT ("./a"), 0⟩, ⟨5, strT ("./a"), 2⟩], [(strT ("./a"), 2)], [], [strT ("./a")]⟩ := by
  decide

example :
    recalibrate [] [] [⟨2, strT ("./a"), 0⟩, ⟨5, strT ("./a"), 2⟩] [(strT ("./a"), 2)] =
      ⟨[], [], [strT ("./a")], []⟩ := by decide

/-! ## `NestedLiveFile` — content reload (`_reload_content`) -/

/-- The boundary marker line placed immediately before a node's content. -/
def startMarker (fileName path : Str) (lines : Nat) : Str :=
  strT ("//_ START_FILE | ") ++ fileName ++ strT (" | ") ++ path ++ strT (" | ") ++
    natToStr lines ++ strT (" LINES _//")

/-- The boundary marker line placed immediately after a node's content. -/
def endMarker (fileName path : Str) (lines : Nat) : Str :=
  strT ("//_ END_FILE | ") ++ fileName ++ strT (" | ") ++ path ++ strT (" | ") ++
    natToStr lines ++ strT (" LINES _//")

/-- `<total_lines>` as computed by `_reload_content`: newline count plus 3. -/
def totalLinesOf (content : Str) : Nat := nlCount content + 3

/-- Successful read: content wrapped between the two boundary comments. -/
def wrapContent (fileName path content : Str) : Str :=
  startMarker fileName path (totalLinesOf content) ++ strT ("\n") ++ content ++
    strT ("\n") ++ endMarker fileName path (totalLinesOf content)

/-- Failed read: the inert placeholder the node serves instead. -/
def invalidMarker (fileName path : Str) : Str :=
  strT ("//_ INVALID_FILE | ") ++ fileName ++ strT (" | ") ++ path ++ strT (" _//") ++
    strT ("\n")

/-- Tree-side state a reload can touch. -/
structure NodeState where
  content : Str
  pointers : List NPointer
  store : Store
  deriving DecidableEq

/-- Events emitted by one `_reload_content` callback. -/
structure ReloadEvents where
  logs : List Str
  errorSink : List (Str × Str)
  recalibrated : Bool
  deriving DecidableEq

/-- `NestedLiveFile._reload_content` as a state transformer over the read
result (`none` models a `FileSystem.readFile` error).  On failure the content
becomes the placeholder, a `READ_ERROR` message goes to the logger, nothing
goes to the error sink and no recalibration is triggered; on success the
content is wrapped in boundary markers and recalibration is triggered. -/
def reload_content (fileName path hierarchy : Str) (st : NodeState)
    (readResult : Option Str) : NodeState × ReloadEvents :=
  match readResult with
  | none =>
    ({ st with content := invalidMarker fileName path },
     ⟨[strT ("READ_ERROR -> ") ++ hierarchy], [], false⟩)
  | some content =>
    ({ st with content := wrapContent fileName path content },
     ⟨[], [], true⟩)

/-! ## `Compiler` — boundary statements and the position mapper -/

/-- `Compiler._boundary_statement(string)`: recognise a boundary marker line
and split it into its `|`-separated fields, the first being `START`/`END`. -/
def boundary_statement (string : Str) : Option (List Str) :=
  let typeStart := strT ("//_ START_FILE | ")
  let typeEnd := strT ("//_ END_FILE | ")
  let bEnd := strT (" LINES _//")
  let startPre := containsSub typeStart string
  let endPre := containsSub typeEnd string
  let startCheck := startPre || endPre
  let endCheck := containsSub bEnd string
  if startCheck ∧ endCheck then
    let s :=
      if startPre then strT ("START | ") ++ (splitOnL typeStart string).getD 1 []
      else strT ("END | ") ++ (splitOnL typeEnd string).getD 1 []
    some (splitOnL (strT (" | ")) s)
  else none

/-- Result of `Compiler._relative_file`. -/
structure RelRes where
  path : Str
  total_lines : Nat
  relative_line : Int
  deriving DecidableEq

/-- JS array read `chunks[i]` with a possibly negative index. -/
def listGetI (l : List Str) (i : Int) : Option Str :=
  if i < 0 then none else l[i.toNat]?

/-- JS truthiness of `chunks[i]`: defined and not the empty string. -/
def truthyS (o : Option Str) : Bool :=
  match o with
  | none => false
  | some s => ¬s.isEmpty

/-- The upward cursor `chunks[line - move_count]`. -/
def cursorUp (chunks : List Str) (idx : Int) (m : Nat) : Option Str :=
  listGetI chunks (idx - m)

/-- The downward cursor `chunks[line + move_count]`. -/
def cursorDown (chunks : List Str) (idx : Int) (m : Nat) : Option Str :=
  listGetI chunks (idx + m)

/-- `boundary[2]` of a parsed boundary statement: the file path. -/
def boundaryPath (parts : List Str) : Str := parts.getD 2 []

/-- `+boundary[3].split(' ')[0]`: the total line count of the marker. -/
def boundaryTotal (parts : List Str) : Nat :=
  parseNatD ((splitOnL (strT (" ")) (parts.getD 3 [])).headD [])

/-- What the upward cursor check of one loop iteration of `_relative_file`
assigns: a result with `relative_line = move_count` when the line is a
start boundary. -/
def upRes (chunks : List Str) (idx : Int) (m : Nat) : Option RelRes :=
  match cursorUp chunks idx m with
  | some s =>
    if ¬s.isEmpty then
      match boundary_statement s with
      | some parts =>
        if containsSub (strT ("START")) (parts.getD 0 []) then
          some ⟨boundaryPath parts, boundaryTotal parts, (m : Int)⟩
        else none
      | none => none
    else none
  | none => none

/-- What the downward cursor check of one loop iteration assigns: a result
with `relative_line = total_lines - move_count - 1` when the line is an end
boundary. -/
def downRes (chunks : List Str) (idx : Int) (m : Nat) : Option RelRes :=
  match cursorDown chunks idx m with
  | some s =>
    if ¬s.isEmpty then
      match boundary_statement s with
      | some parts =>
        if containsSub (strT ("END")) (parts.getD 0 []) then
          some ⟨boundaryPath parts, boundaryTotal parts,
            (boundaryTotal parts : Int) - m - 1⟩
        else none
      | none => none
    else none
  | none => none

/-- The combined `result` of one loop iteration: the upward check runs first
and the downward check runs second over the same `result` variable, so a
downward hit overwrites an upward one. -/
def stepResult (chunks : List Str) (idx : Int) (m : Nat) : Option RelRes :=
  match downRes chunks idx m with
  | some r => some r
  | none => upRes chunks idx m

/-- The `while` loop of `_relative_file`, fueled; the loop keeps running while
no result is set and at least one cursor is truthy. -/
def relAux (chunks : List Str) (idx : Int) : Nat → Nat → Option RelRes
  | 0, _ => none
  | fuel + 1, m =>
    if truthyS (cursorUp chunks idx m) || truthyS (cursorDown chunks idx m) then
      match stepResult chunks idx m with
      | some r => some r
      | none => relAux chunks idx fuel (m + 1)
    else none

/-- A fuel bound past which both cursors are exhausted. -/
def relBound (chunks : List Str) (idx : Int) : Nat := idx.natAbs + chunks.length + 1

/-- `Compiler._relative_file(line, chunks)`: walk the two cursors outward
from `line - 1` until a boundary statement matches or both cursors die. -/
def relative_file (line : Nat) (chunks : List Str) : Option RelRes :=
  relAux chunks ((line : Int) - 1) (relBound chunks ((line : Int) - 1)) 0

/-! ## `WatcherPool` -/

/-- One `#watchers[path]` entry: debounce timestamp plus registered handler
ids (the callbacks themselves are opaque). -/
structure WatchEntry where
  last_update : Int
  handlers : List Nat
  deriving DecidableEq

/-- The pool's mutable state, including the `#statistics` counters. -/
structure PoolState where
  id : Nat
  watchers : List (Str × WatchEntry)
  watcher_delay : Int
  call_delay : Int
  stat_watchers : Int
  stat_handlers : Int
  deriving DecidableEq

/-- `#id_max = Number.MAX_SAFE_INTEGER - 1000`. -/
def idMax : Nat := 9007199254740991 - 1000

/-- `WatcherPool._id()`: iterate the id counter with wraparound. -/
def poolNextId (st : PoolState) : PoolState × Nat :=
  let i := st.id + 1
  let i := if i = idMax then 0 else i
  ({ st with id := i }, i)

/-- `WatcherPool.watch(path, handler)` at time `now`: lazily create the
entry (whose debounce timestamp starts `watcher_delay` in the past), then
register a fresh handler id. -/
def watch (st : PoolState) (path : Str) (now : Int) : PoolState × Nat :=
  let st :=
    if (objGet st.watchers path).isSome then st
    else
      { st with
        watchers := objSet st.watchers path ⟨now - st.watcher_delay, []⟩
        stat_watchers := st.stat_watchers + 1 }
  let (st, i) := poolNextId st
  let st := { st with stat_handlers := st.stat_handlers + 1 }
  let entry := (objGet st.watchers path).getD ⟨now - st.watcher_delay, []⟩
  ({ st with
      watchers := objSet st.watchers path { entry with handlers := entry.handlers ++ [i] } },
    i)

/-- `WatcherPool.unwatch(path, handler_id)`: decrement the handlers
statistic, filter the registration list, and close/remove the watcher when
the list became empty.  The returned list contains the paths whose underlying
watch handle was closed. -/
def unwatch (st : PoolState) (path : Str) (handlerId : Nat) : PoolState × List Str :=
  match objGet st.watchers path with
  | none => (st, [])
  | some entry =>
    let st := { st with stat_handlers := st.stat_handlers - 1 }
    let filtered := entry.handlers.filter (fun h => ¬h = handlerId)
    if filtered.isEmpty then
      ({ st with
          watchers := objDel st.watchers path
          stat_watchers := st.stat_watchers - 1 },
        [path])
    else
      ({ st with watchers := objSet st.watchers path { entry with handlers := filtered } }, [])

/-- `WatcherPool._delay_check(path, touch)` at time `now`: the event passes
iff strictly more than `watcher_delay` elapsed since `last_update`; passing
with `touch` updates the timestamp to `now` at once. -/
def delay_check (st : PoolState) (path : Str) (touch : Bool) (now : Int) : Bool × PoolState :=
  match objGet st.watchers path with
  | some w =>
    let result := now - w.last_update > st.watcher_delay
    if result ∧ touch then
      (result, { st with watchers := objSet st.watchers path { w with last_update := now } })
    else (result, st)
  | none => (false, st)

/-- Output of `WatcherPool._handle_update`: the new pool state, whether the
event was forwarded, and the scheduled `setTimeout` invocation (fire time and
path whose handlers will be called). -/
structure UpdateOut where
  st : PoolState
  forwarded : Bool
  scheduled : List (Int × Str)
  deriving DecidableEq

/-- `WatcherPool._handle_update(path, event, file_name)` at time `now`. -/
def handle_update (st : PoolState) (path : Str) (now : Int) : UpdateOut :=
  if (objGet st.watchers path).isSome then
    let (ok, st') := delay_check st path true now
    if ok then ⟨st', true, [(now + st.call_delay, path)]⟩
    else ⟨st', false, []⟩
  else ⟨st, false, []⟩

/-! ## `Compiler` — write path (`_perform_write`, `_on_recalibration`) -/

/-- The `#write_to` fields relevant to write scheduling. -/
structure WriteState where
  initial_write : Bool
  path : Option Str
  last_write : Int
  write_delay : Int
  pending : Bool
  deriving DecidableEq

/-- Outcome of one `_perform_write()` call at time `now`: the updated
`#write_to` state, the fire times of any `setTimeout` retry scheduled, and
whether the compiled file was actually written. -/
structure WriteOut where
  st : WriteState
  scheduled : List Int
  wrote : Bool
  deriving DecidableEq

/-- `Compiler._perform_write()` at time `now`. -/
def perform_write (st : WriteState) (now : Int) : WriteOut :=
  let difference := now - st.last_write
  if difference < st.write_delay then
    if ¬st.pending then
      ⟨{ st with pending := true }, [now + (st.write_delay - difference)], false⟩
    else ⟨st, [], false⟩
  else
    let st := { st with pending := false, last_write := now }
    if ¬st.initial_write then ⟨{ st with initial_write := true }, [], false⟩
    else ⟨st, [], true⟩

/-- The `#write_to` defaults before and after `write_to(options)` enables
writing: `initial_write` stays false, `last_write` stays 0. -/
def writeToEnabled (p : Str) (delay : Int) : WriteState :=
  ⟨false, some p, 0, delay, false⟩

/-- `Compiler._on_recalibration()`: the write sequence runs only once
`write_to` has enabled a path. -/
def on_recalibration_write (st : WriteState) (now : Int) : WriteOut :=
  if st.path ≠ none then perform_write st now else ⟨st, [], false⟩


/-! ## Lemmas about the JS object model -/

theorem objGet_cons {K : Type} [DecidableEq K] {A : Type} (p : K × A) (tl : List (K × A))
    (k : K) : objGet (p :: tl) k = if p.1 = k then some p.2 else objGet tl k := by
  simp only [objGet, List.find?_cons]
  by_cases h : p.1 = k <;> simp [h]

theorem objGet_isSome_find {K : Type} [DecidableEq K] {A : Type} (l : List (K × A)) (k : K) :
    (l.find? (fun p => p.1 = k)).isSome = (objGet l k).isSome := by
  simp [objGet]

theorem objGet_map_set {K : Type} [DecidableEq K] {A : Type} (l : List (K × A)) (k k' : K)
    (v : A) :
    objGet (l.map (fun p => if p.1 = k then (k, v) else p)) k' =
      if k' = k then (objGet l k).map (fun _ => v) else objGet l k' := by
  induction l with
  | nil => by_cases hk : k' = k <;> simp [objGet, hk]
  | cons p tl ih =>
    simp only [List.map_cons]
    by_cases hp : p.1 = k
    · rw [if_pos hp]
      rw [objGet_cons, objGet_cons, objGet_cons, hp]
      by_cases hk : k' = k
      · subst hk; simp [ih]
      · have hk2 : ¬k = k' := fun h => hk h.symm
        simp [hk, hk2, ih]
    · rw [if_neg hp]
      rw [objGet_cons, objGet_cons, objGet_cons]
      by_cases hk : k' = k
      · subst hk; simp [hp, ih]
      · by_cases hpk : p.1 = k'
        · simp [hpk, hk]
        · simp [hpk, hk, ih]

theorem objGet_append_none {K : Type} [DecidableEq K] {A : Type} (l m : List (K × A)) (k : K)
    (h : objGet l k = none) : objGet (l ++ m) k = objGet m k := by
  simp only [objGet, List.find?_append]
  simp only [objGet] at h
  cases hf : l.find? (fun p => p.1 = k)
  · simp [Option.orElse]
  · rw [hf] at h; simp at h

theorem objGet_append_some {K : Type} [DecidableEq K] {A : Type} (l m : List (K × A)) (k : K)
    (v : A) (h : objGet l k = some v) : objGet (l ++ m) k = some v := by
  simp only [objGet, List.find?_append]
  simp only [objGet] at h
  cases hf : l.find? (fun p => p.1 = k)
  · rw [hf] at h; simp at h
  · rw [hf] at h
    simp [Option.orElse] at h ⊢
    exact h

theorem objGet_objSet {K : Type} [DecidableEq K] {A : Type} (l : List (K × A)) (k k' : K)
    (v : A) : objGet (objSet l k v) k' = if k' = k then some v else objGet l k' := by
  unfold objSet
  by_cases hs : (l.find? (fun p => p.1 = k)).isSome
  · rw [if_pos hs, objGet_map_set]
    rw [objGet_isSome_find] at hs
    by_cases hk : k' = k
    · rw [if_pos hk, if_pos hk]
      cases ho : objGet l k
      · rw [ho] at hs; simp at hs
      · simp
    · rw [if_neg hk, if_neg hk]
  · rw [if_neg hs]
    rw [objGet_isSome_find] at hs
    by_cases hk : k' = k
    · subst hk
      have hnone : objGet l k' = none := by
        cases ho : objGet l k'
        · rfl
        · rw [ho] at hs; simp at hs
      rw [objGet_append_none _ _ _ hnone, objGet_cons]
      simp
    · rw [if_neg hk]
      cases ho : objGet l k'
      · rw [objGet_append_none _ _ _ ho, objGet_cons]
        have hk2 : ¬k = k' := fun h => hk h.symm
        simp [hk2, objGet]
      · rw [objGet_append_some _ _ _ _ ho]

theorem objGet_objDel {K : Type} [DecidableEq K] {A : Type} (l : List (K × A)) (k k' : K) :
    objGet (objDel l k) k' = if k' = k then none else objGet l k' := by
  induction l with
  | nil => by_cases hk : k' = k <;> simp [objGet, objDel, hk]
  | cons p tl ih =>
    by_cases hp : p.1 = k
    · have hstep : objDel (p :: tl) k = objDel tl k := by
        simp [objDel, List.filter_cons, hp]
      rw [hstep, ih, objGet_cons]
      by_cases hk : k' = k
      · simp [hk]
      · have hpk : ¬p.1 = k' := fun h => hk (h.symm.trans hp)
        simp [hk, hpk]
    · have hstep : objDel (p :: tl) k = p :: objDel tl k := by
        simp [objDel, List.filter_cons, hp]
      rw [hstep, objGet_cons, objGet_cons, ih]
      by_cases hpk : p.1 = k'
      · by_cases hk : k' = k
        · exact absurd (hpk.trans hk) hp
        · simp [hpk, hk]
      · simp [hpk]

/-! ## Claim C9 — `unwatch` and the handlers statistic -/

/-- C9: for every path with an active watcher entry, `unwatch(path, id)`
decrements the pool's handlers statistic by exactly one — even when no
registration with that id exists in the handler list, so the statistic need
not match the number of live registrations — and the underlying watch handle
is closed and the entry removed exactly when the filtered handler list is
empty. -/
theorem claim_C9 :
    (∀ st path i entry, objGet st.watchers path = some entry →
      (unwatch st path i).1.stat_handlers = st.stat_handlers - 1 ∧
      (entry.handlers.filter (fun h => ¬h = i) = [] →
        objGet (unwatch st path i).1.watchers path = none ∧
        (unwatch st path i).2 = [path] ∧
        (unwatch st path i).1.stat_watchers = st.stat_watchers - 1) ∧
      (entry.handlers.filter (fun h => ¬h = i) ≠ [] →
        objGet (unwatch st path i).1.watchers path =
          some { entry with handlers := entry.handlers.filter (fun h => ¬h = i) } ∧
        (unwatch st path i).2 = [] ∧
        (unwatch st path i).1.stat_watchers = st.stat_watchers)) ∧
    -- the drift at a concrete input: id 9 is not registered, the statistic
    -- still drops while the handler list is untouched
    ((unwatch ⟨3, [(strT ("p"), ⟨0, [3]⟩)], 250, 150, 1, 1⟩ (strT ("p")) 9).1.stat_handlers = 0 ∧
      objGet (unwatch ⟨3, [(strT ("p"), ⟨0, [3]⟩)], 250, 150, 1, 1⟩
        (strT ("p")) 9).1.watchers (strT ("p")) = some ⟨0, [3]⟩) := by
  constructor
  · intro st path i entry h
    refine ⟨?_, ?_, ?_⟩
    · simp only [unwatch, h]
      cases hf : (entry.handlers.filter (fun h => ¬h = i)).isEmpty <;> simp [hf]
    · intro hfil
      simp only [unwatch, h, hfil]
      simp [objGet_objDel]
    · intro hfil
      have hne : (entry.handlers.filter (fun h => ¬h = i)).isEmpty = false := by
        cases hc : entry.handlers.filter (fun h => ¬h = i)
        · exact absurd hc hfil
        · simp [hc]
      simp only [unwatch, h, hne]
      simp [objGet_objSet]
  · constructor <;> decide

/-- Witness for C9 at a concrete pool: removing one of two registered
handlers decrements the statistic. -/
theorem claim_C9_witness :
    (unwatch ⟨5, [(strT ("q"), ⟨10, [3, 4]⟩)], 250, 150, 1, 2⟩ (strT ("q")) 3).1.stat_handlers =
      2 - 1 :=
  (claim_C9.1 ⟨5, [(strT ("q"), ⟨10, [3, 4]⟩)], 250, 150, 1, 2⟩ (strT ("q")) 3 ⟨10, [3, 4]⟩
    (by decide)).1

/-! ## Claim C7 — the debounce window of `_handle_update` -/

/-- Counterexample to C7 as stated: with `watch_delay = 250` and exactly 250
milliseconds elapsed since the last forwarded event, the claim requires the
event to be forwarded ("at least watch_delay elapsed"), but `_delay_check`
uses a strict `>` and drops it. -/
theorem claim_C7_cex :
    (1000 : Int) - 750 ≥ 250 ∧
    (handle_update ⟨0, [(strT ("p"), ⟨750, [1]⟩)], 250, 150, 1, 1⟩
      (strT ("p")) 1000).forwarded = false := by
  constructor
  · decide
  · decide

/-- C7 (amended): an event is forwarded iff *strictly more than*
`watch_delay` milliseconds elapsed since the last forwarded event for the
path; forwarding writes the timestamp into the returned state at once while
the handler invocation is only scheduled `call_delay` later, and a second
event inside the window is dropped. -/
theorem claim_C7 :
    ∀ st path now entry, objGet st.watchers path = some entry →
      ((handle_update st path now).forwarded = true ↔
        now - entry.last_update > st.watcher_delay) ∧
      ((handle_update st path now).forwarded = true →
        objGet (handle_update st path now).st.watchers path =
          some { entry with last_update := now } ∧
        (handle_update st path now).scheduled = [(now + st.call_delay, path)]) ∧
      ((handle_update st path now).forwarded = false →
        (handle_update st path now).st = st ∧
        (handle_update st path now).scheduled = []) ∧
      (∀ now₂, (handle_update st path now).forwarded = true →
        ¬now₂ - now > st.watcher_delay →
        (handle_update (handle_update st path now).st path now₂).forwarded = false) := by
  intro st path now entry h
  have hsome : (objGet st.watchers path).isSome = true := by rw [h]; rfl
  by_cases hd : now - entry.last_update > st.watcher_delay
  · have hupd : handle_update st path now =
        ⟨{ st with watchers := objSet st.watchers path { entry with last_update := now } },
          true, [(now + st.call_delay, path)]⟩ := by
      simp only [handle_update, delay_check, hsome, h, if_pos hd, hd]
      simp
    refine ⟨?_, ?_, ?_, ?_⟩
    · rw [hupd]; simpa using hd
    · intro _
      rw [hupd]
      exact ⟨by simp [objGet_objSet], rfl⟩
    · intro hf; rw [hupd] at hf; simp at hf
    · intro now₂ _ hn
      rw [hupd]
      have hget : objGet (objSet st.watchers path { entry with last_update := now }) path =
          some { entry with last_update := now } := by simp [objGet_objSet]
      have hsome₂ : (objGet (objSet st.watchers path
          { entry with last_update := now }) path).isSome = true := by rw [hget]; rfl
      simp only [handle_update, delay_check, hsome₂, hget]
      simp [hn]
  · have hupd : handle_update st path now = ⟨st, false, []⟩ := by
      simp only [handle_update, delay_check, hsome, h]
      simp [hd]
    refine ⟨?_, ?_, ?_, ?_⟩
    · rw [hupd]; simpa using hd
    · intro hf; rw [hupd] at hf; simp at hf
    · intro _; rw [hupd]; exact ⟨rfl, rfl⟩
    · intro now₂ hf; rw [hupd] at hf; simp at hf

/-- Witness for C7: a concrete event 251 milliseconds after the last one is
forwarded. -/
theorem claim_C7_witness :
    (handle_update ⟨0, [(strT ("p"), ⟨749, [1]⟩)], 250, 150, 1, 1⟩
      (strT ("p")) 1000).forwarded = true :=
  ((claim_C7 ⟨0, [(strT ("p"), ⟨749, [1]⟩)], 250, 150, 1, 1⟩ (strT ("p")) 1000 ⟨749, [1]⟩
    (by decide)).1).mpr (by decide)

/-! ## Claim C8 — write deferral -/

/-- C8: a write requested before the minimum spacing has elapsed is deferred,
never dropped: when no retry is pending, exactly one retry is scheduled (at
the moment the spacing expires) and `pending` is set; while a retry is
pending, further early requests change nothing and schedule nothing; no early
request writes; and the scheduled retry, when it fires, passes the delay
check and performs the write. -/
theorem claim_C8 :
    ∀ st now, now - st.last_write < st.write_delay →
      (st.pending = false →
        (perform_write st now).scheduled = [st.last_write + st.write_delay] ∧
        (perform_write st now).st = { st with pending := true }) ∧
      (st.pending = true →
        (perform_write st now).scheduled = [] ∧ (perform_write st now).st = st) ∧
      (perform_write st now).wrote = false ∧
      (st.pending = false → st.initial_write = true →
        (perform_write (perform_write st now).st
          (st.last_write + st.write_delay)).wrote = true) := by
  intro st now h
  refine ⟨?_, ?_, ?_, ?_⟩
  · intro hp
    have : perform_write st now =
        ⟨{ st with pending := true }, [now + (st.write_delay - (now - st.last_write))],
          false⟩ := by
      simp [perform_write, h, hp]
    rw [this]
    constructor
    · simp only [List.cons.injEq, and_true]
      ring
    · rfl
  · intro hp
    simp [perform_write, h, hp]
  · simp only [perform_write, if_pos h]
    cases st.pending <;> simp
  · intro hp hi
    have hfirst : (perform_write st now).st = { st with pending := true } := by
      simp [perform_write, h, hp]
    rw [hfirst]
    have hpass : ¬st.last_write + st.write_delay - st.last_write < st.write_delay := by
      simp
    simp [perform_write, hpass, hi]

/-- Witness for C8: an early write at time 100 after a write at time 0 with
spacing 250 schedules exactly the retry at time 250. -/
theorem claim_C8_witness :
    (perform_write ⟨true, some (strT ("./")), 0, 250, false⟩ 100).scheduled =
      [(0 : Int) + 250] :=
  ((claim_C8 ⟨true, some (strT ("./")), 0, 250, false⟩ 100 (by decide)).1 rfl).1

/-! ## Claim C10 — the first passing recalibration only arms `initial_write` -/

/-- C10: once `write_to` is enabled, the first recalibration that passes the
write-delay check performs no write and only sets `initial_write`; a write
happens from the second passing recalibration onward.  The `writeToEnabled`
state produced by `write_to(options)` starts with `initial_write = false`,
and `_on_recalibration` routes into `_perform_write` once a path is set. -/
theorem claim_C10 :
    ∀ st now, st.initial_write = false → ¬now - st.last_write < st.write_delay →
      (perform_write st now).wrote = false ∧
      (perform_write st now).scheduled = [] ∧
      (perform_write st now).st.initial_write = true ∧
      (∀ now₂, ¬now₂ - now < st.write_delay →
        (perform_write (perform_write st now).st now₂).wrote = true) ∧
      (∀ p d, (writeToEnabled p d).initial_write = false ∧
        on_recalibration_write (writeToEnabled p d) now =
          perform_write (writeToEnabled p d) now) := by
  intro st now hi h
  have hfirst : perform_write st now =
      ⟨{ st with pending := false, last_write := now, initial_write := true }, [], false⟩ := by
    simp [perform_write, h, hi]
  refine ⟨by rw [hfirst], by rw [hfirst], by rw [hfirst], ?_, ?_⟩
  · intro now₂ h₂
    rw [hfirst]
    simp [perform_write, h₂]
  · intro p d
    refine ⟨rfl, ?_⟩
    simp [on_recalibration_write, writeToEnabled]

/-- Witness for C10: with defaults (`last_write = 0`) a first passing call at
time 1000 writes nothing, a second at time 1250 writes. -/
theorem claim_C10_witness :
    (perform_write ⟨false, some (strT ("./")), 0, 250, false⟩ 1000).wrote = false ∧
    (perform_write (perform_write ⟨false, some (strT ("./")), 0, 250, false⟩ 1000).st
      1250).wrote = true := by
  have h := claim_C10 ⟨false, some (strT ("./")), 0, 250, false⟩ 1000 rfl (by decide)
  exact ⟨h.1, h.2.2.2.1 1250 (by decide)⟩

/-! ## Claim C5 — read failure handling -/

/-- Counterexample to C5 as stated: a failed read sends nothing to the error
sink `error(path, error)`; it is reported through the logger as a
`READ_ERROR` event instead. -/
theorem claim_C5_cex :
    (reload_content (strT ("a.js")) (strT ("./a.js")) (strT ("a.js"))
      ⟨[], [], []⟩ none).2.errorSink = [] ∧
    (reload_content (strT ("a.js")) (strT ("./a.js")) (strT ("a.js"))
      ⟨[], [], []⟩ none).2.logs = [strT ("READ_ERROR -> a.js")] := by
  constructor
  · rfl
  · decide

/-- C5 (amended): when a node's content read fails, the content becomes the
inert `INVALID_FILE` placeholder marker, which stays until the next
successful read; the failure is reported through the *logger* as a
`READ_ERROR` event — not through the error sink and not thrown — and it is
non-fatal: pointers and child store are untouched and no recalibration is
triggered. -/
theorem claim_C5 :
    ∀ fileName path hierarchy st,
      (reload_content fileName path hierarchy st none).1.content =
        invalidMarker fileName path ∧
      (reload_content fileName path hierarchy st none).1.pointers = st.pointers ∧
      (reload_content fileName path hierarchy st none).1.store = st.store ∧
      (reload_content fileName path hierarchy st none).2.errorSink = [] ∧
      (reload_content fileName path hierarchy st none).2.logs =
        [strT ("READ_ERROR -> ") ++ hierarchy] ∧
      (reload_content fileName path hierarchy st none).2.recalibrated = false ∧
      (reload_content fileName path hierarchy
        (reload_content fileName path hierarchy st none).1 none).1.content =
          invalidMarker fileName path ∧
      (∀ c, (reload_content fileName path hierarchy
        (reload_content fileName path hierarchy st none).1 (some c)).1.content =
          wrapContent fileName path c) := by
  intro fileName path hierarchy st
  exact ⟨rfl, rfl, rfl, rfl, rfl, rfl, rfl, fun c => rfl⟩

/-! ## Lemmas about `_relative_file` -/

theorem listGetI_none (l : List Str) (i : Int) (h : i < 0 ∨ (l.length : Int) ≤ i) :
    listGetI l i = none := by
  unfold listGetI
  by_cases h2 : i < 0
  · simp [h2]
  · rw [if_neg h2]
    apply List.getElem?_eq_none
    omega

theorem cursors_dead (chunks : List Str) (idx : Int) (m : Nat)
    (h : idx.natAbs + chunks.length ≤ m) :
    cursorUp chunks idx m = none ∧ cursorDown chunks idx m = none := by
  constructor
  · apply listGetI_none
    omega
  · apply listGetI_none
    omega

theorem truthy_lt (chunks : List Str) (idx : Int) (m : Nat)
    (h : (truthyS (cursorUp chunks idx m) || truthyS (cursorDown chunks idx m)) = true) :
    m < idx.natAbs + chunks.length := by
  by_contra hc
  have hd := cursors_dead chunks idx m (by omega)
  rw [hd.1, hd.2] at h
  simp [truthyS] at h

theorem stepResult_truthy (chunks : List Str) (idx : Int) (m : Nat) (r : RelRes)
    (h : stepResult chunks idx m = some r) :
    (truthyS (cursorUp chunks idx m) || truthyS (cursorDown chunks idx m)) = true := by
  unfold stepResult at h
  cases hd : downRes chunks idx m with
  | some r' =>
    unfold downRes at hd
    cases hc : cursorDown chunks idx m with
    | none => rw [hc] at hd; simp at hd
    | some s =>
      rw [hc] at hd
      by_cases he : s.isEmpty
      · simp [he] at hd
      · simp [truthyS, hc, he]
  | none =>
    rw [hd] at h
    unfold upRes at h
    cases hc : cursorUp chunks idx m with
    | none => rw [hc] at h; simp at h
    | some s =>
      rw [hc] at h
      by_cases he : s.isEmpty
      · simp [he] at h
      · simp [truthyS, hc, he]

theorem relAux_fuel (chunks : List Str) (idx : Int) :
    ∀ f₁ f₂ m, idx.natAbs + chunks.length + 1 ≤ m + f₁ →
      idx.natAbs + chunks.length + 1 ≤ m + f₂ →
      relAux chunks idx f₁ m = relAux chunks idx f₂ m := by
  intro f₁
  induction f₁ with
  | zero =>
    intro f₂ m h₁ h₂
    have hd := cursors_dead chunks idx m (by omega)
    cases f₂ with
    | zero => rfl
    | succ f => simp [relAux, truthyS, hd.1, hd.2]
  | succ f ih =>
    intro f₂ m h₁ h₂
    cases f₂ with
    | zero =>
      have hd := cursors_dead chunks idx m (by omega)
      simp [relAux, truthyS, hd.1, hd.2]
    | succ f₂ =>
      simp only [relAux]
      by_cases hc : (truthyS (cursorUp chunks idx m) ||
          truthyS (cursorDown chunks idx m)) = true
      · rw [if_pos hc, if_pos hc]
        cases hs : stepResult chunks idx m with
        | some r => rfl
        | none => exact ih f₂ (m + 1) (by omega) (by omega)
      · rw [if_neg hc, if_neg hc]

theorem relAux_advance (chunks : List Str) (idx : Int) (m : Nat)
    (hw : ∀ k, k < m → stepResult chunks idx k = none ∧
      (truthyS (cursorUp chunks idx k) || truthyS (cursorDown chunks idx k)) = true) :
    ∀ f₀, relBound chunks idx ≤ f₀ →
      relAux chunks idx f₀ 0 = relAux chunks idx (f₀ - m) m := by
  induction m with
  | zero => intro f₀ _; rfl
  | succ m ih =>
    intro f₀ hf
    have h1 := ih (fun k hk => hw k (Nat.lt_succ_of_lt hk)) f₀ hf
    have htr := (hw m (Nat.lt_succ_self m)).2
    have hst := (hw m (Nat.lt_succ_self m)).1
    have hm : m < idx.natAbs + chunks.length := truthy_lt chunks idx m htr
    have hb : relBound chunks idx = idx.natAbs + chunks.length + 1 := rfl
    have hrw : f₀ - m = (f₀ - (m + 1)) + 1 := by omega
    rw [h1, hrw]
    simp only [relAux]
    rw [if_pos htr, hst]

/-! ## Claim C2 — the position mapper walk -/

/-- Counterexample to C2 as stated: with a start boundary one line above and
an end boundary one line below the queried line, both cursors hit at distance
1; the claim says the upward (start-boundary) cursor wins since it is checked
first, but the downward check runs second over the same `result` variable and
overwrites it, so the end-boundary result is returned. -/
theorem claim_C2_cex :
    relative_file 2 [strT ("//_ START_FILE | a | /a | 5 LINES _//"), strT ("x"),
      strT ("//_ END_FILE | b | /b | 7 LINES _//")] =
      some ⟨strT ("/b"), 7, 5⟩ ∧
    upRes [strT ("//_ START_FILE | a | /a | 5 LINES _//"), strT ("x"),
      strT ("//_ END_FILE | b | /b | 7 LINES _//")] 1 1 =
      some ⟨strT ("/a"), 5, 1⟩ := by
  constructor
  · decide
  · decide

/-- C2 (amended): `_relative_file` walks the two cursors outward from the
1-based line; at each distance the upward cursor is tested for a
start-boundary statement (yielding `relative_line = distance`) and the
downward cursor for an end-boundary statement (yielding
`relative_line = total_lines - distance - 1`); the first distance at which
either check produces a result ends the walk, and when both cursors hit a
boundary at the same distance the result is the one from the *downward*
(end-boundary) cursor, because its assignment runs after the upward check in
the same iteration. -/
theorem claim_C2 :
    (∀ (chunks : List Str) (line m : Nat) (r : RelRes),
      (∀ k, k < m → stepResult chunks ((line : Int) - 1) k = none ∧
        (truthyS (cursorUp chunks ((line : Int) - 1) k) ||
          truthyS (cursorDown chunks ((line : Int) - 1) k)) = true) →
      stepResult chunks ((line : Int) - 1) m = some r →
      relative_file line chunks = some r) ∧
    (∀ chunks idx m s parts, cursorUp chunks idx m = some s → s.isEmpty = false →
      boundary_statement s = some parts →
      containsSub (strT ("START")) (parts.getD 0 []) = true →
      upRes chunks idx m = some ⟨boundaryPath parts, boundaryTotal parts, (m : Int)⟩) ∧
    (∀ chunks idx m s parts, cursorDown chunks idx m = some s → s.isEmpty = false →
      boundary_statement s = some parts →
      containsSub (strT ("END")) (parts.getD 0 []) = true →
      downRes chunks idx m = some ⟨boundaryPath parts, boundaryTotal parts,
        (boundaryTotal parts : Int) - m - 1⟩) ∧
    (∀ chunks idx m ru rd, upRes chunks idx m = some ru → downRes chunks idx m = some rd →
      stepResult chunks idx m = some rd) ∧
    (∀ chunks idx m, downRes chunks idx m = none →
      stepResult chunks idx m = upRes chunks idx m) := by
  refine ⟨?_, ?_, ?_, ?_, ?_⟩
  · intro chunks line m r hw hhit
    unfold relative_file
    rw [relAux_advance chunks ((line : Int) - 1) m hw (relBound chunks ((line : Int) - 1))
      le_rfl]
    have htr := stepResult_truthy _ _ _ _ hhit
    have hm := truthy_lt _ _ _ htr
    have hb : relBound chunks ((line : Int) - 1) =
        ((line : Int) - 1).natAbs + chunks.length + 1 := rfl
    have hrw : relBound chunks ((line : Int) - 1) - m =
        (relBound chunks ((line : Int) - 1) - m - 1) + 1 := by omega
    rw [hrw]
    simp only [relAux]
    rw [if_pos htr, hhit]
  · intro chunks idx m s parts hc he hb hst
    unfold upRes
    rw [hc]
    rw [List.getD_eq_getElem?_getD] at hst
    simp [he, hb, hst]
  · intro chunks idx m s parts hc he hb hst
    unfold downRes
    rw [hc]
    rw [List.getD_eq_getElem?_getD] at hst
    simp [he, hb, hst]
  · intro chunks idx m ru rd hu hd
    unfold stepResult
    rw [hd]
  · intro chunks idx m hd
    unfold stepResult
    rw [hd]

/-- Witness for C2: a concrete walk that passes two boundary-free distances
and then hits an end boundary at distance 2. -/
theorem claim_C2_witness :
    relative_file 1 [strT ("x"), strT ("y"),
      strT ("//_ END_FILE | b | /b | 9 LINES _//")] = some ⟨strT ("/b"), 9, 6⟩ :=
  claim_C2.1 [strT ("x"), strT ("y"), strT ("//_ END_FILE | b | /b | 9 LINES _//")]
    1 2 ⟨strT ("/b"), 9, 6⟩
    (by intro k hk
        interval_cases k
        · exact ⟨by decide, by decide⟩
        · exact ⟨by decide, by decide⟩)
    (by decide)

/-! ## Lemmas about `_recalibrate` -/

theorem cntPtr_nil (p : Str) : cntPtr [] p = 0 := rfl

theorem cntPtr_cons (pt : NPointer) (tl : List NPointer) (p : Str) :
    cntPtr (pt :: tl) p = (if pt.path = p then 1 else 0) + cntPtr tl p := by
  by_cases h : pt.path = p <;> simp [cntPtr, List.filter_cons, h, Nat.add_comm]

theorem cntPtr_eq_zero (l : List NPointer) (p : Str) :
    cntPtr l p = 0 ↔ ∀ pt ∈ l, ¬pt.path = p := by
  constructor
  · intro h pt hm hp
    induction l with
    | nil => simp at hm
    | cons x tl ih =>
      rw [cntPtr_cons] at h
      rcases List.mem_cons.mp hm with he | ht
      · subst he; simp [hp] at h
      · exact ih (by omega) ht
  · intro h
    induction l with
    | nil => rfl
    | cons x tl ih =>
      rw [cntPtr_cons]
      have hx : ¬x.path = p := h x (List.mem_cons_self x tl)
      rw [if_neg hx]
      simp [ih (fun pt hm => h pt (List.mem_cons_of_mem x hm))]

theorem removeAux_kept (files : List (Nat × FileEntry)) (paths : List Str) :
    ∀ (ptrs : List NPointer) (store : Store),
      (removeAux files paths ptrs store).1 = ptrs.filter (survivesScan files) := by
  intro ptrs
  induction ptrs with
  | nil => intro store; rfl
  | cons pt tl ih =>
    intro store
    by_cases hs : survivesScan files pt = true
    · simp only [removeAux]
      rw [if_pos hs, List.filter_cons, if_pos hs, ih]
    · have hs' : survivesScan files pt = false := by
        cases h : survivesScan files pt
        · rfl
        · exact absurd h hs
      cases hn : objGet store pt.path with
      | none => simp [removeAux, hs, hn, List.filter_cons, ih]
      | some n =>
        by_cases hc : (n - 1 < 1 ∧ ¬paths.contains pt.path = true)
        · have hmem : pt.path ∉ paths := by simpa using hc.2
          simp [removeAux, hs, hn, hc.1, hmem, List.filter_cons, ih]
        · have hmem : ¬(n - 1 < 1 ∧ pt.path ∉ paths) := by simpa using hc
          simp [removeAux, hs, hn, hmem, List.filter_cons, ih]

theorem removeAux_char (files : List (Nat × FileEntry)) (paths : List Str) :
    ∀ (ptrs : List NPointer) (store : Store) (K : Str → Nat),
      (∀ pt ∈ ptrs, (objGet store pt.path).isSome = true) →
      (∀ p n, objGet store p = some n → n = (K p : Int) + (cntPtr ptrs p : Int)) →
      ((∀ p, p ∈ (removeAux files paths ptrs store).2.2 ↔
         (K p = 0 ∧ 0 < cntPtr ptrs p ∧
          (∀ pt ∈ ptrs, pt.path = p → survivesScan files pt = false) ∧
          p ∉ paths)) ∧
       (∀ p, objGet (removeAux files paths ptrs store).2.1 p =
         if p ∈ (removeAux files paths ptrs store).2.2 then none
         else (objGet store p).map (fun _ => (K p : Int) +
           (cntPtr (ptrs.filter (survivesScan files)) p : Int)))) := by
  intro ptrs
  induction ptrs with
  | nil =>
    intro store K hdom hcnt
    constructor
    · intro p
      simp [removeAux, cntPtr_nil]
    · intro p
      have h22 : (removeAux files paths [] store).2.2 = [] := rfl
      have h21 : (removeAux files paths [] store).2.1 = store := rfl
      rw [h22, h21]
      simp only [List.not_mem_nil, if_false, List.filter_nil, cntPtr_nil]
      cases ho : objGet store p with
      | none => simp
      | some n =>
        have hv := hcnt p n ho
        rw [cntPtr_nil] at hv
        simp only [Option.map_some']
        rw [hv]
  | cons pt tl ih =>
    intro store K hdom hcnt
    by_cases hs : survivesScan files pt = true
    · -- the pointer survives: no decrement, the kept count of its path rises
      have hcnt' : ∀ p n, objGet store p = some n →
          n = (((if pt.path = p then K p + 1 else K p) : Nat) : Int) + (cntPtr tl p : Int) := by
        intro p n ho
        have h0 := hcnt p n ho
        rw [cntPtr_cons] at h0
        by_cases hp : pt.path = p
        · rw [if_pos hp] at h0 ⊢
          push_cast at h0 ⊢
          omega
        · rw [if_neg hp] at h0 ⊢
          push_cast at h0 ⊢
          omega
      have ihr := ih store (fun q => if pt.path = q then K q + 1 else K q)
        (fun pt' h' => hdom pt' (List.mem_cons_of_mem _ h')) hcnt'
      beta_reduce at ihr
      have hr2 : (removeAux files paths (pt :: tl) store).2.2 =
          (removeAux files paths tl store).2.2 := by
        simp [removeAux, hs]
      have hr1 : (removeAux files paths (pt :: tl) store).2.1 =
          (removeAux files paths tl store).2.1 := by
        simp [removeAux, hs]
      have hfilter : (pt :: tl).filter (survivesScan files) =
          pt :: tl.filter (survivesScan files) := by
        rw [List.filter_cons, if_pos hs]
      constructor
      · intro p
        rw [hr2, ihr.1 p]
        by_cases hp : pt.path = p
        · constructor
          · rintro ⟨h1, -, -, -⟩
            rw [if_pos hp] at h1
            omega
          · rintro ⟨-, -, h3, -⟩
            have := h3 pt (List.mem_cons_self pt tl) hp
            rw [hs] at this
            exact Bool.noConfusion this
        · constructor
          · rintro ⟨h1, h2, h3, h4⟩
            rw [if_neg hp] at h1
            refine ⟨h1, ?_, ?_, h4⟩
            · rw [cntPtr_cons, if_neg hp]; omega
            · intro pt' hm hpp
              rcases List.mem_cons.mp hm with he | ht
              · subst he; exact absurd hpp hp
              · exact h3 pt' ht hpp
          · rintro ⟨h1, h2, h3, h4⟩
            refine ⟨by rw [if_neg hp]; exact h1, ?_, ?_, h4⟩
            · rw [cntPtr_cons, if_neg hp] at h2; omega
            · intro pt' ht hpp
              exact h3 pt' (List.mem_cons_of_mem _ ht) hpp
      · intro p
        rw [hr1, hr2, ihr.2 p]
        by_cases hp : pt.path = p
        · have hcc : (((if pt.path = p then K p + 1 else K p) : Nat) : Int) +
              (cntPtr (tl.filter (survivesScan files)) p : Int) =
              (K p : Int) + (cntPtr ((pt :: tl).filter (survivesScan files)) p : Int) := by
            rw [hfilter, cntPtr_cons, if_pos hp, if_pos hp]
            push_cast
            omega
          rw [hcc]
        · have hcc : (((if pt.path = p then K p + 1 else K p) : Nat) : Int) +
              (cntPtr (tl.filter (survivesScan files)) p : Int) =
              (K p : Int) + (cntPtr ((pt :: tl).filter (survivesScan files)) p : Int) := by
            rw [hfilter, cntPtr_cons, if_neg hp, if_neg hp]
            push_cast
            omega
          rw [hcc]
    · -- the pointer is stale: its child's count is decremented
      have hs' : survivesScan files pt = false := by
        cases h : survivesScan files pt
        · rfl
        · exact absurd h hs
      have hdomh := hdom pt (List.mem_cons_self pt tl)
      obtain ⟨n, hn⟩ : ∃ n, objGet store pt.path = some n := by
        cases ho : objGet store pt.path with
        | none => rw [ho] at hdomh; simp at hdomh
        | some m => exact ⟨m, rfl⟩
      have hnval := hcnt pt.path n hn
      rw [cntPtr_cons, if_pos rfl] at hnval
      have hfilter : (pt :: tl).filter (survivesScan files) =
          tl.filter (survivesScan files) := by
        rw [List.filter_cons, if_neg hs]
      by_cases hcond : (n - 1 < 1 ∧ pt.path ∉ paths)
      · -- destroy: the count fell below one and the path is not rescanned
        have hK0 : K pt.path = 0 := by push_cast at hnval; omega
        have hct0 : cntPtr tl pt.path = 0 := by push_cast at hnval; omega
        have hnotl : ∀ pt' ∈ tl, ¬pt'.path = pt.path :=
          (cntPtr_eq_zero tl pt.path).mp hct0
        have hstget : ∀ q, objGet (objDel (objSet store pt.path (n - 1)) pt.path) q =
            if q = pt.path then none else objGet store q := by
          intro q
          rw [objGet_objDel, objGet_objSet]
          by_cases hq : q = pt.path <;> simp [hq]
        have ihr := ih (objDel (objSet store pt.path (n - 1)) pt.path) K ?_ ?_
        rotate_left
        · intro pt' h'
          rw [hstget]
          rw [if_neg (hnotl pt' h')]
          exact hdom pt' (List.mem_cons_of_mem _ h')
        · intro p n' ho
          rw [hstget p] at ho
          by_cases hq : p = pt.path
          · rw [if_pos hq] at ho; cases ho
          · rw [if_neg hq] at ho
            have h0 := hcnt p n' ho
            rw [cntPtr_cons, if_neg (fun h => hq h.symm)] at h0
            simpa using h0
        have hr2 : (removeAux files paths (pt :: tl) store).2.2 =
            pt.path :: (removeAux files paths tl
              (objDel (objSet store pt.path (n - 1)) pt.path)).2.2 := by
          simp [removeAux, hs, hn, hcond.1, hcond.2]
        have hr1 : (removeAux files paths (pt :: tl) store).2.1 =
            (removeAux files paths tl
              (objDel (objSet store pt.path (n - 1)) pt.path)).2.1 := by
          simp [removeAux, hs, hn, hcond.1, hcond.2]
        constructor
        · intro p
          rw [hr2]
          by_cases hp : p = pt.path
          · subst hp
            constructor
            · intro _
              refine ⟨hK0, ?_, ?_, hcond.2⟩
              · rw [cntPtr_cons, if_pos rfl]; omega
              · intro pt' hm hpp
                rcases List.mem_cons.mp hm with he | ht
                · subst he; exact hs'
                · exact absurd hpp (hnotl pt' ht)
            · intro _
              exact List.mem_cons_self _ _
          · have hmc : (p ∈ pt.path :: (removeAux files paths tl
                (objDel (objSet store pt.path (n - 1)) pt.path)).2.2) ↔
                p ∈ (removeAux files paths tl
                  (objDel (objSet store pt.path (n - 1)) pt.path)).2.2 := by
              constructor
              · intro h
                rcases List.mem_cons.mp h with he | ht
                · exact absurd he hp
                · exact ht
              · exact fun h => List.mem_cons_of_mem _ h
            rw [hmc, ihr.1 p]
            have hpc : ¬pt.path = p := fun h => hp h.symm
            constructor
            · rintro ⟨h1, h2, h3, h4⟩
              refine ⟨h1, ?_, ?_, h4⟩
              · rw [cntPtr_cons, if_neg hpc]; omega
              · intro pt' hm hpp
                rcases List.mem_cons.mp hm with he | ht
                · subst he; exact hs'
                · exact h3 pt' ht hpp
            · rintro ⟨h1, h2, h3, h4⟩
              refine ⟨h1, ?_, ?_, h4⟩
              · rw [cntPtr_cons, if_neg hpc] at h2; omega
              · intro pt' ht hpp
                exact h3 pt' (List.mem_cons_of_mem _ ht) hpp
        · intro p
          rw [hr1, hr2, ihr.2 p]
          by_cases hp : p = pt.path
          · subst hp
            rw [hstget, if_pos rfl, if_pos (List.mem_cons_self pt.path _)]
            split <;> simp
          · rw [hstget, if_neg hp, hfilter]
            have hmc : (p ∈ pt.path :: (removeAux files paths tl
                (objDel (objSet store pt.path (n - 1)) pt.path)).2.2) ↔
                p ∈ (removeAux files paths tl
                  (objDel (objSet store pt.path (n - 1)) pt.path)).2.2 := by
              constructor
              · intro h
                rcases List.mem_cons.mp h with he | ht
                · exact absurd he hp
                · exact ht
              · exact fun h => List.mem_cons_of_mem _ h
            by_cases hmem : p ∈ (removeAux files paths tl
                (objDel (objSet store pt.path (n - 1)) pt.path)).2.2
            · rw [if_pos hmem, if_pos (List.mem_cons_of_mem _ hmem)]
            · rw [if_neg hmem, if_neg (fun hc => hmem (hmc.mp hc))]
      · -- no destruction: the decremented count is written back
        have hstget : ∀ q, objGet (objSet store pt.path (n - 1)) q =
            if q = pt.path then some (n - 1) else objGet store q :=
          fun q => objGet_objSet store pt.path q (n - 1)
        have ihr := ih (objSet store pt.path (n - 1)) K ?_ ?_
        rotate_left
        · intro pt' h'
          rw [hstget]
          by_cases hq : pt'.path = pt.path
          · rw [if_pos hq]; rfl
          · rw [if_neg hq]; exact hdom pt' (List.mem_cons_of_mem _ h')
        · intro p n' ho
          rw [hstget p] at ho
          by_cases hq : p = pt.path
          · rw [if_pos hq] at ho
            injection ho with ho
            subst hq
            push_cast at hnval ⊢
            omega
          · rw [if_neg hq] at ho
            have h0 := hcnt p n' ho
            rw [cntPtr_cons, if_neg (fun h => hq h.symm)] at h0
            simpa using h0
        have hr2 : (removeAux files paths (pt :: tl) store).2.2 =
            (removeAux files paths tl (objSet store pt.path (n - 1))).2.2 := by
          simp [removeAux, hs, hn, hcond]
        have hr1 : (removeAux files paths (pt :: tl) store).2.1 =
            (removeAux files paths tl (objSet store pt.path (n - 1))).2.1 := by
          simp [removeAux, hs, hn, hcond]
        constructor
        · intro p
          rw [hr2, ihr.1 p]
          by_cases hp : p = pt.path
          · subst hp
            constructor
            · rintro ⟨h1, h2, h3, h4⟩
              refine ⟨h1, ?_, ?_, h4⟩
              · rw [cntPtr_cons, if_pos rfl]; omega
              · intro pt' hm hpp
                rcases List.mem_cons.mp hm with he | ht
                · subst he; exact hs'
                · exact h3 pt' ht hpp
            · rintro ⟨h1, h2, h3, h4⟩
              refine ⟨h1, ?_, ?_, h4⟩
              · by_contra hz
                have hz0 : cntPtr tl pt.path = 0 := by omega
                push_cast [hz0, h1] at hnval
                exact hcond ⟨by omega, h4⟩
              · intro pt' ht hpp
                exact h3 pt' (List.mem_cons_of_mem _ ht) hpp
          · have hpc : ¬pt.path = p := fun h => hp h.symm
            constructor
            · rintro ⟨h1, h2, h3, h4⟩
              refine ⟨h1, ?_, ?_, h4⟩
              · rw [cntPtr_cons, if_neg hpc]; omega
              · intro pt' hm hpp
                rcases List.mem_cons.mp hm with he | ht
                · subst he; exact hs'
                · exact h3 pt' ht hpp
            · rintro ⟨h1, h2, h3, h4⟩
              refine ⟨h1, ?_, ?_, h4⟩
              · rw [cntPtr_cons, if_neg hpc] at h2; omega
              · intro pt' ht hpp
                exact h3 pt' (List.mem_cons_of_mem _ ht) hpp
        · intro p
          rw [hr1, hr2, ihr.2 p]
          by_cases hp : p = pt.path
          · subst hp
            rw [hstget, if_pos rfl, hn, hfilter]
            rfl
          · rw [hstget, if_neg hp, hfilter]

theorem objGet_singleton_self (P : Str) (v : Int) : objGet [(P, v)] P = some v := by
  simp [objGet, List.find?]

theorem objSet_nil (P : Str) (v : Int) : objSet ([] : Store) P v = [(P, v)] := rfl

theorem objSet_singleton_self (P : Str) (v w : Int) :
    objSet [(P, v)] P w = [(P, w)] := by
  simp [objSet, List.find?]

theorem cntPtr_all (P : Str) : ∀ (l : List NPointer), (∀ pt ∈ l, pt.path = P) →
    cntPtr l P = l.length := by
  intro l
  induction l with
  | nil => intro _; rfl
  | cons pt tl ih =>
    intro hall
    rw [cntPtr_cons, if_pos (hall pt (List.mem_cons_self pt tl)),
      ih (fun pt' h => hall pt' (List.mem_cons_of_mem _ h)), List.length_cons]
    omega

theorem survivesScan_nil (pt : NPointer) : survivesScan [] pt = false := rfl


theorem objDel_singleton_self (P : Str) (v : Int) : objDel [(P, v)] P = [] := by
  simp [objDel]

theorem removeAux_cons_stale_keep (files : List (Nat × FileEntry)) (paths : List Str)
    (pt : NPointer) (tl : List NPointer) (store : Store) (n : Int)
    (hs : survivesScan files pt = false)
    (hn : objGet store pt.path = some n)
    (hc : ¬(n - 1 < 1 ∧ pt.path ∉ paths)) :
    removeAux files paths (pt :: tl) store =
      removeAux files paths tl (objSet store pt.path (n - 1)) := by
  simp [removeAux, hs, hn, hc]

theorem removeAux_cons_stale_destroy (files : List (Nat × FileEntry)) (paths : List Str)
    (pt : NPointer) (tl : List NPointer) (store : Store) (n : Int)
    (hs : survivesScan files pt = false)
    (hn : objGet store pt.path = some n)
    (hc1 : n - 1 < 1) (hc2 : pt.path ∉ paths) :
    removeAux files paths (pt :: tl) store =
      ((removeAux files paths tl (objDel (objSet store pt.path (n - 1)) pt.path)).1,
       (removeAux files paths tl (objDel (objSet store pt.path (n - 1)) pt.path)).2.1,
       pt.path ::
         (removeAux files paths tl (objDel (objSet store pt.path (n - 1)) pt.path)).2.2) := by
  simp [removeAux, hs, hn, hc1, hc2]

theorem removeAux_all_stale (P : Str) :
    ∀ (ptrs : List NPointer) (n : Int), n = (ptrs.length : Int) → ptrs ≠ [] →
      (∀ pt ∈ ptrs, pt.path = P) →
      removeAux [] [] ptrs [(P, n)] = ([], [], [P]) := by
  intro ptrs
  induction ptrs with
  | nil => intro n _ h; exact absurd rfl h
  | cons pt tl ih =>
    intro n hn _ hall
    have hpP : pt.path = P := hall pt (List.mem_cons_self pt tl)
    have hget : objGet [(P, n)] P = some n := objGet_singleton_self _ _
    have hset : objSet [(P, n)] P (n - 1) = [(P, n - 1)] := objSet_singleton_self _ _ _
    rw [List.length_cons] at hn
    cases htl : tl with
    | nil =>
      subst htl
      have hc : n - 1 < 1 := by simp at hn; omega
      have hdel : objDel ([(P, n - 1)] : Store) P = [] := objDel_singleton_self _ _
      rw [removeAux_cons_stale_destroy [] [] pt [] [(P, n)] n (survivesScan_nil pt)
        (by rw [hpP]; exact hget) hc (List.not_mem_nil _), hpP, hset, hdel]
      rfl
    | cons x xs =>
      subst htl
      have hlen : (x :: xs).length = xs.length + 1 := List.length_cons x xs
      have hc : ¬(n - 1 < 1) := by rw [hlen] at hn; push_cast at hn; omega
      have hrec := ih (n - 1) (by rw [hn]; push_cast; omega) (by simp)
        (fun pt' h => hall pt' (List.mem_cons_of_mem _ h))
      rw [removeAux_cons_stale_keep [] [] pt (x :: xs) [(P, n)] n (survivesScan_nil pt)
        (by rw [hpP]; exact hget) (by intro hcc; exact hc hcc.1), hpP, hset, hrec]

theorem createAux_same_path (P : Str) :
    ∀ (fs : List (Nat × FileEntry)) (k : Int),
      (∀ x ∈ fs, x.2.path = P) →
      ((createAux [] fs [(P, k)]).2.1 = [(P, k + fs.length)] ∧
       (createAux [] fs [(P, k)]).1.length = fs.length ∧
       (∀ pt ∈ (createAux [] fs [(P, k)]).1, pt.path = P) ∧
       (createAux [] fs [(P, k)]).2.2.1 = []) := by
  intro fs
  induction fs with
  | nil =>
    intro k _
    refine ⟨?_, rfl, ?_, rfl⟩
    · simp [createAux]
    · intro pt h; simp [createAux] at h
  | cons le rest ih =>
    intro k hall
    obtain ⟨line, e⟩ := le
    have heP : e.path = P := hall (line, e) (List.mem_cons_self _ _)
    have hget : objGet [(P, k)] P = some k := objGet_singleton_self _ _
    have hset : objSet [(P, k)] P (k + 1) = [(P, k + 1)] := objSet_singleton_self _ _ _
    have ihr := ih (k + 1) (fun x h => hall x (List.mem_cons_of_mem _ h))
    have hstep : createAux [] ((line, e) :: rest) [(P, k)] =
        ((⟨line, e.path, e.spacing⟩ : NPointer) :: (createAux [] rest [(P, k + 1)]).1,
          (createAux [] rest [(P, k + 1)]).2.1,
          [] ++ (createAux [] rest [(P, k + 1)]).2.2.1, true) := by
      simp [createAux, heP, hget, hset]
    rw [hstep]
    refine ⟨?_, ?_, ?_, ?_⟩
    · rw [ihr.1]
      simp only [List.length_cons]
      have hkl : k + 1 + (rest.length : Int) = k + ((rest.length + 1 : Nat) : Int) := by
        push_cast; omega
      rw [hkl]
    · simp only [List.length_cons]
      rw [ihr.2.1]
    · intro pt h
      rcases List.mem_cons.mp h with he | ht
      · rw [he]; exact heP
      · exact ihr.2.2.1 pt ht
    · simp only [List.nil_append]
      exact ihr.2.2.2

theorem createAux_not_mentioned (kept : List NPointer) :
    ∀ (fs : List (Nat × FileEntry)) (store : Store) (p : Str),
      (∀ x ∈ fs, ¬x.2.path = p) →
      objGet (createAux kept fs store).2.1 p = objGet store p := by
  intro fs
  induction fs with
  | nil => intro store p _; rfl
  | cons le rest ih =>
    intro store p hall
    obtain ⟨line, e⟩ := le
    have hep : ¬e.path = p := hall (line, e) (List.mem_cons_self _ _)
    have hall' : ∀ x ∈ rest, ¬x.2.path = p :=
      fun x h => hall x (List.mem_cons_of_mem _ h)
    by_cases hk : (kept.find? (fun pt => pt.line = line)).isSome = true
    · simp only [createAux, hk, if_true]
      exact ih store p hall'
    · cases ho : objGet store e.path with
      | none =>
        have hstep : (createAux kept ((line, e) :: rest) store).2.1 =
            (createAux kept rest
              (objSet (objSet store e.path 0) e.path
                ((objGet (objSet store e.path 0) e.path).getD 0 + 1))).2.1 := by
          simp [createAux, hk, ho]
        have hpe : ¬p = e.path := fun h => hep h.symm
        rw [hstep, ih _ p hall', objGet_objSet, if_neg hpe, objGet_objSet, if_neg hpe]
      | some v =>
        have hstep : (createAux kept ((line, e) :: rest) store).2.1 =
            (createAux kept rest
              (objSet store e.path ((objGet store e.path).getD 0 + 1))).2.1 := by
          simp [createAux, hk, ho]
        have hpe : ¬p = e.path := fun h => hep h.symm
        rw [hstep, ih _ p hall', objGet_objSet, if_neg hpe]

theorem insertStable_length (pt : NPointer) :
    ∀ l, (insertStable pt l).length = l.length + 1 := by
  intro l
  induction l with
  | nil => rfl
  | cons x xs ih =>
    by_cases h : x.line ≤ pt.line <;> simp [insertStable, h, ih]

theorem sortPointers_length : ∀ l, (sortPointers l).length = l.length := by
  intro l
  induction l with
  | nil => rfl
  | cons x xs ih => simp [sortPointers, insertStable_length, ih]

theorem mem_insertStable (pt x : NPointer) :
    ∀ l, x ∈ insertStable pt l ↔ x = pt ∨ x ∈ l := by
  intro l
  induction l with
  | nil => simp [insertStable]
  | cons y ys ih =>
    by_cases h : y.line ≤ pt.line <;> simp [insertStable, h, ih] <;> tauto

theorem mem_sortPointers (x : NPointer) : ∀ l, x ∈ sortPointers l ↔ x ∈ l := by
  intro l
  induction l with
  | nil => simp [sortPointers]
  | cons y ys ih => simp [sortPointers, mem_insertStable, ih]

theorem createAux_empty_store (P : Str) (fs : List (Nat × FileEntry))
    (hne : fs ≠ []) (hall : ∀ x ∈ fs, x.2.path = P) :
    (createAux [] fs []).2.1 = [(P, (fs.length : Int))] ∧
    (createAux [] fs []).1.length = fs.length ∧
    (∀ pt ∈ (createAux [] fs []).1, pt.path = P) ∧
    (createAux [] fs []).2.2.1 = [P] ∧
    (createAux [] fs []).2.2.2 = true := by
  cases fs with
  | nil => exact absurd rfl hne
  | cons le rest =>
    obtain ⟨line, e⟩ := le
    have heP : e.path = P := hall _ (List.mem_cons_self _ _)
    have hget1 : objGet [(P, (0 : Int))] P = some 0 := objGet_singleton_self _ _
    have hset1 : objSet [(P, (0 : Int))] P 1 = [(P, 1)] := objSet_singleton_self _ _ _
    have hstep : createAux [] ((line, e) :: rest) [] =
        ((⟨line, e.path, e.spacing⟩ : NPointer) :: (createAux [] rest [(P, 1)]).1,
          (createAux [] rest [(P, 1)]).2.1,
          [e.path] ++ (createAux [] rest [(P, 1)]).2.2.1, true) := by
      have hnilP : objGet ([] : Store) P = none := rfl
      have hsnilP : objSet ([] : Store) P 0 = [(P, 0)] := rfl
      simp [createAux, heP, hnilP, hsnilP, hget1, hset1]
    have ihr := createAux_same_path P rest 1
      (fun x h => hall x (List.mem_cons_of_mem _ h))
    have hlen : (1 : Int) + (rest.length : Int) = (((line, e) :: rest).length : Nat) := by
      rw [List.length_cons]; push_cast; omega
    rw [hstep]
    refine ⟨?_, ?_, ?_, ?_, rfl⟩
    · rw [ihr.1, hlen]
    · simp only [List.length_cons]
      rw [ihr.2.1]
    · intro pt h
      rcases List.mem_cons.mp h with he | ht
      · rw [he]; exact heP
      · exact ihr.2.2.1 pt ht
    · rw [ihr.2.2.2, heP]
      rfl

/-! ## Claim C1 — reconciliation destroys exactly the orphaned children -/

/-- C1: under the store invariant (each stored count equals the number of old
pointers referencing the path), a reconciliation pass destroys a child
exactly when it had at least one pointer, every old pointer to it is stale
(so the count drops below one) and its path is absent from the scan's
resolved paths; a destroyed path's entry is gone from the child map
afterwards.  Moreover, for a scan with N pointers all resolving to one path
P from a fresh node, exactly one child instance exists with reference count
N, and reconciling the resulting state against an empty scan destroys
exactly that one instance. -/
theorem claim_C1 :
    (∀ (files : List (Nat × FileEntry)) (paths : List Str) (old : List NPointer)
        (store : Store),
      (∀ pt ∈ old, (objGet store pt.path).isSome = true) →
      (∀ p n, objGet store p = some n → n = (cntPtr old p : Int)) →
      (∀ x ∈ files, x.2.path ∈ paths) →
      (∀ p, p ∈ (recalibrate files paths old store).destroyed ↔
        (0 < cntPtr old p ∧
         (∀ pt ∈ old, pt.path = p → survivesScan files pt = false) ∧
         p ∉ paths)) ∧
      (∀ p, p ∈ (recalibrate files paths old store).destroyed →
        objGet (recalibrate files paths old store).store p = none)) ∧
    (∀ (P : Str) (fs : List (Nat × FileEntry)) (pathsP : List Str),
      fs ≠ [] → (∀ x ∈ fs, x.2.path = P) →
      (recalibrate fs pathsP [] []).store = [(P, (fs.length : Int))] ∧
      (recalibrate fs pathsP [] []).pointers.length = fs.length ∧
      (∀ pt ∈ (recalibrate fs pathsP [] []).pointers, pt.path = P) ∧
      (recalibrate fs pathsP [] []).destroyed = [] ∧
      (recalibrate fs pathsP [] []).created = [P]) ∧
    (∀ (P : Str) (ptrs : List NPointer),
      ptrs ≠ [] → (∀ pt ∈ ptrs, pt.path = P) →
      (recalibrate [] [] ptrs [(P, (ptrs.length : Int))]).destroyed = [P] ∧
      (recalibrate [] [] ptrs [(P, (ptrs.length : Int))]).store = [] ∧
      (recalibrate [] [] ptrs [(P, (ptrs.length : Int))]).pointers = []) := by
  refine ⟨?_, ?_, ?_⟩
  · intro files paths old store hdom hcnt hpf
    have hchar := removeAux_char files paths old store (fun _ => 0) hdom
      (fun p n h => by simpa using hcnt p n h)
    beta_reduce at hchar
    have hd : (recalibrate files paths old store).destroyed =
        (removeAux files paths old store).2.2 := rfl
    have hst : (recalibrate files paths old store).store =
        (createAux (removeAux files paths old store).1 files
          (removeAux files paths old store).2.1).2.1 := rfl
    constructor
    · intro p
      rw [hd, hchar.1 p]
      simp
    · intro p hmem
      rw [hd] at hmem
      have hnp : p ∉ paths := (((hchar.1 p).mp hmem).2.2).2
      have hfs : ∀ x ∈ files, ¬x.2.path = p := by
        intro x hx he
        exact hnp (he ▸ hpf x hx)
      rw [hst, createAux_not_mentioned _ files _ p hfs, hchar.2 p, if_pos hmem]
  · intro P fs pathsP hne hall
    have hrm : removeAux fs pathsP [] [] = ([], [], []) := rfl
    have hcr := createAux_empty_store P fs hne hall
    have hflag : (createAux [] fs ([] : Store)).2.2.2 = true := hcr.2.2.2.2
    have hp : (recalibrate fs pathsP [] []).pointers =
        sortPointers ([] ++ (createAux [] fs ([] : Store)).1) := by
      simp [recalibrate, hrm, hflag]
    have hs : (recalibrate fs pathsP [] []).store = (createAux [] fs ([] : Store)).2.1 := rfl
    have hds : (recalibrate fs pathsP [] []).destroyed = [] := rfl
    have hcrd : (recalibrate fs pathsP [] []).created =
        (createAux [] fs ([] : Store)).2.2.1 := rfl
    refine ⟨?_, ?_, ?_, hds, ?_⟩
    · rw [hs, hcr.1]
    · rw [hp]
      simp only [List.nil_append]
      rw [sortPointers_length, hcr.2.1]
    · intro pt h
      rw [hp] at h
      simp only [List.nil_append] at h
      exact hcr.2.2.1 pt ((mem_sortPointers pt _).mp h)
    · rw [hcrd, hcr.2.2.2.1]
  · intro P ptrs hne hall
    have hrm := removeAux_all_stale P ptrs (ptrs.length : Int) rfl hne hall
    refine ⟨?_, ?_, ?_⟩ <;>
      simp [recalibrate, hrm, createAux]

/-- Witness for C1 at concrete data: two pointers to one path, a rescan that
keeps neither line and no longer resolves the path, destroys exactly that
child. -/
theorem claim_C1_witness :
    (recalibrate [] [] [⟨2, strT ("./a"), 0⟩, ⟨5, strT ("./a"), 2⟩]
      [(strT ("./a"), (2 : Int))]).destroyed = [strT ("./a")] := by
  have h := (claim_C1.2.2 (strT ("./a")) [⟨2, strT ("./a"), 0⟩, ⟨5, strT ("./a"), 2⟩]
    (by decide) (by decide)).1
  simpa using h

/-! ## Characterising `_get_included_files` by occurrence index

Splitting the content on `keyword(` gives chunks; occurrence `i ≥ 1` is the
boundary between chunk `i-1` (its `left`) and chunk `i` (its `current`). -/

/-- The 1-based line position of occurrence `i`: one plus the newlines in
all chunks before chunk `i`. -/
def linePosAt (cs : List Str) (i : Nat) : Nat :=
  1 + ((cs.take i).map nlCount).sum

/-- What occurrence `i` contributes to `files`/`paths`: defined when the
candidate passes every syntactic check of `callEntry` and its resolved path
is not forbidden. -/
def emitAt (cfg : ScanCfg) (cs : List Str) (i : Nat) : Option (Nat × FileEntry) :=
  if i = 0 then none
  else
    match cs[i - 1]?, cs[i]? with
    | some left, some cur =>
      match callEntry cfg.dir left cur with
      | some (p, sp) =>
        if cfg.forbidden.contains p then none
        else some (linePosAt cs i, ⟨p, sp⟩)
      | none => none
    | _, _ => none

/-- What occurrence `i` contributes to the cycle errors: defined when the
candidate passes every syntactic check but resolves to a forbidden path. -/
def cycleAt (cfg : ScanCfg) (cs : List Str) (i : Nat) : Option ScanErr :=
  if i = 0 then none
  else
    match cs[i - 1]?, cs[i]? with
    | some left, some cur =>
      match callEntry cfg.dir left cur with
      | some (p, _) =>
        if cfg.forbidden.contains p then some ⟨cfg.selfPath, p, linePosAt cs i⟩
        else none
      | none => none
    | _, _ => none

/-- All emissions of a chunk list, in occurrence order. -/
def emissions (cfg : ScanCfg) (cs : List Str) : List (Nat × FileEntry) :=
  (List.range cs.length).filterMap (emitAt cfg cs)

/-- The fold underlying `scanContent`, on an explicit chunk list. -/
def scanFold (cfg : ScanCfg) (cs : List Str) : ScanState :=
  cs.foldl (stepScan cfg) scanInit

theorem scanContent_eq_fold (cfg : ScanCfg) (content : Str) :
    scanContent cfg content = scanFold cfg (splitOnL (cfg.tag ++ strT ("(")) content) := rfl

theorem linePosAt_append (cs : List Str) (c : Str) (i : Nat) (h : i ≤ cs.length) :
    linePosAt (cs ++ [c]) i = linePosAt cs i := by
  unfold linePosAt
  rw [List.take_append_of_le_length h]

theorem emitAt_append (cfg : ScanCfg) (cs : List Str) (c : Str) (i : Nat)
    (h : i < cs.length) : emitAt cfg (cs ++ [c]) i = emitAt cfg cs i := by
  unfold emitAt
  by_cases h0 : i = 0
  · rw [if_pos h0, if_pos h0]
  · rw [if_neg h0, if_neg h0]
    rw [List.getElem?_append, if_pos (show i - 1 < cs.length by omega),
      List.getElem?_append, if_pos h, linePosAt_append cs c i (by omega)]

theorem cycleAt_append (cfg : ScanCfg) (cs : List Str) (c : Str) (i : Nat)
    (h : i < cs.length) : cycleAt cfg (cs ++ [c]) i = cycleAt cfg cs i := by
  unfold cycleAt
  by_cases h0 : i = 0
  · rw [if_pos h0, if_pos h0]
  · rw [if_neg h0, if_neg h0]
    rw [List.getElem?_append, if_pos (show i - 1 < cs.length by omega),
      List.getElem?_append, if_pos h, linePosAt_append cs c i (by omega)]

theorem emissions_append (cfg : ScanCfg) (cs : List Str) (c : Str) :
    emissions cfg (cs ++ [c]) =
      emissions cfg cs ++ (emitAt cfg (cs ++ [c]) cs.length).toList := by
  unfold emissions
  rw [List.length_append, List.length_cons, List.length_nil, List.range_succ,
    List.filterMap_append]
  congr 1
  apply List.filterMap_congr
  intro i hi
  exact emitAt_append cfg cs c i (List.mem_range.mp hi)

theorem cycles_append (cfg : ScanCfg) (cs : List Str) (c : Str) :
    (List.range (cs ++ [c]).length).filterMap (cycleAt cfg (cs ++ [c])) =
      (List.range cs.length).filterMap (cycleAt cfg cs) ++
        (cycleAt cfg (cs ++ [c]) cs.length).toList := by
  rw [List.length_append, List.length_cons, List.length_nil, List.range_succ,
    List.filterMap_append]
  congr 1
  apply List.filterMap_congr
  intro i hi
  exact cycleAt_append cfg cs c i (List.mem_range.mp hi)

theorem stepScan_some (cfg : ScanCfg) (st : ScanState) (left cur : Str)
    (h : st.prev = some left) :
    stepScan cfg st cur =
      (let linesCount := nlCount left + 1
       let linePosition := st.offset + linesCount
       let st' :=
         match callEntry cfg.dir left cur with
         | some (absolutePath, spacing) =>
           if cfg.forbidden.contains absolutePath then
             { st with errors :=
                 st.errors ++ [(⟨cfg.selfPath, absolutePath, linePosition⟩ : ScanErr)] }
           else
             { st with
               paths := addPath st.paths absolutePath
               files := objSet st.files linePosition ⟨absolutePath, spacing⟩ }
         | none => st
       { st' with prev := some cur, offset := st.offset + (linesCount - 1) }) := by
  unfold stepScan
  rw [h]

theorem scanFold_char (cfg : ScanCfg) :
    ∀ cs : List Str,
      (scanFold cfg cs).prev = cs.getLast? ∧
      (scanFold cfg cs).offset = ((cs.dropLast).map nlCount).sum ∧
      (scanFold cfg cs).files =
        (emissions cfg cs).foldl (fun m kv => objSet m kv.1 kv.2) [] ∧
      (scanFold cfg cs).paths =
        (emissions cfg cs).foldl (fun l kv => addPath l kv.2.path) [] ∧
      (scanFold cfg cs).errors = (List.range cs.length).filterMap (cycleAt cfg cs) := by
  intro cs
  induction cs using List.reverseRecOn with
  | nil => exact ⟨rfl, rfl, rfl, rfl, rfl⟩
  | append_singleton cs c ih =>
    obtain ⟨hprev, hoff, hfiles, hpaths, herr⟩ := ih
    have hfold : scanFold cfg (cs ++ [c]) = stepScan cfg (scanFold cfg cs) c := by
      unfold scanFold
      rw [List.foldl_append, List.foldl_cons, List.foldl_nil]
    rcases List.eq_nil_or_concat cs with rfl | ⟨ds, left, rfl⟩
    · have hstep : scanFold cfg [c] = { scanInit with prev := some c } := rfl
      refine ⟨?_, ?_, ?_, ?_, ?_⟩ <;>
        simp [hstep, emissions, emitAt, cycleAt, scanInit, List.range_succ,
          List.filterMap_cons]
    · simp only [List.concat_eq_append] at hprev hoff hfiles hpaths herr hfold ⊢
      have hprev' : (scanFold cfg (ds ++ [left])).prev = some left := by
        rw [hprev, List.getLast?_concat]
      have hlen1 : (ds ++ [left]).length - 1 = ds.length := by simp
      have h1 : ((ds ++ [left]) ++ [c])[(ds ++ [left]).length - 1]? = some left := by
        rw [List.getElem?_append, if_pos (by simp)]
        rw [hlen1, List.getElem?_concat_length]
      have h2 : ((ds ++ [left]) ++ [c])[(ds ++ [left]).length]? = some c :=
        List.getElem?_concat_length _ _
      have hEidx : emitAt cfg ((ds ++ [left]) ++ [c]) (ds ++ [left]).length =
          (match callEntry cfg.dir left c with
           | some (p, sp) =>
             if cfg.forbidden.contains p then none
             else some (linePosAt ((ds ++ [left]) ++ [c]) (ds ++ [left]).length,
               (⟨p, sp⟩ : FileEntry))
           | none => none) := by
        unfold emitAt
        rw [if_neg (by simp), h1, h2]
      have hCidx : cycleAt cfg ((ds ++ [left]) ++ [c]) (ds ++ [left]).length =
          (match callEntry cfg.dir left c with
           | some (p, _) =>
             if cfg.forbidden.contains p then
               some (⟨cfg.selfPath, p,
                 linePosAt ((ds ++ [left]) ++ [c]) (ds ++ [left]).length⟩ : ScanErr)
             else none
           | none => none) := by
        unfold cycleAt
        rw [if_neg (by simp), h1, h2]
      have hline : (scanFold cfg (ds ++ [left])).offset + (nlCount left + 1) =
          linePosAt ((ds ++ [left]) ++ [c]) (ds ++ [left]).length := by
        rw [hoff]
        unfold linePosAt
        rw [List.take_left, List.dropLast_concat, List.map_append]
        simp
        omega
      have hoff2 : (scanFold cfg (ds ++ [left])).offset + (nlCount left + 1 - 1) =
          ((((ds ++ [left]) ++ [c]).dropLast).map nlCount).sum := by
        rw [hoff, List.dropLast_concat, List.dropLast_concat, List.map_append]
        simp
      have hem := emissions_append cfg (ds ++ [left]) c
      have hcy := cycles_append cfg (ds ++ [left]) c
      rw [hfold, stepScan_some cfg _ left c hprev']
      simp only []
      cases hce : callEntry cfg.dir left c with
      | none =>
        rw [hce] at hEidx hCidx
        try simp only [] at hEidx hCidx
        try simp only []
        refine ⟨by simp, hoff2, ?_, ?_, ?_⟩
        · rw [hem, hEidx]
          simp only [Option.toList_none, List.append_nil]
          exact hfiles
        · rw [hem, hEidx]
          simp only [Option.toList_none, List.append_nil]
          exact hpaths
        · rw [hcy, hCidx]
          simp only [Option.toList_none, List.append_nil]
          exact herr
      | some psp =>
        obtain ⟨p, sp⟩ := psp
        rw [hce] at hEidx hCidx
        try simp only [] at hEidx hCidx
        try simp only []
        by_cases hforb : cfg.forbidden.contains p = true
        · rw [if_pos hforb] at hEidx hCidx
          simp only [if_pos hforb]
          refine ⟨by simp, hoff2, ?_, ?_, ?_⟩
          · rw [hem, hEidx]
            simp only [Option.toList_none, List.append_nil]
            exact hfiles
          · rw [hem, hEidx]
            simp only [Option.toList_none, List.append_nil]
            exact hpaths
          · rw [hcy, hCidx, herr, hline]
            simp
        · rw [if_neg hforb] at hEidx hCidx
          simp only [if_neg hforb]
          refine ⟨by simp, hoff2, ?_, ?_, ?_⟩
          · rw [hem, hEidx]
            simp only [Option.toList_some]
            rw [List.foldl_append, List.foldl_cons, List.foldl_nil, hfiles, hline]
          · rw [hem, hEidx]
            simp only [Option.toList_some]
            rw [List.foldl_append, List.foldl_cons, List.foldl_nil, hpaths]
          · rw [hcy, hCidx]
            simp only [Option.toList_none, List.append_nil]
            exact herr

theorem objGet_setFold (l : List (Nat × FileEntry)) (L : Nat) :
    objGet (l.foldl (fun m kv => objSet m kv.1 kv.2) []) L =
      (l.reverse.find? (fun kv => kv.1 = L)).map (fun kv => kv.2) := by
  induction l using List.reverseRecOn with
  | nil => rfl
  | append_singleton l kv ih =>
    rw [List.foldl_append, List.foldl_cons, List.foldl_nil, objGet_objSet,
      List.reverse_append]
    simp only [List.reverse_cons, List.reverse_nil, List.nil_append,
      List.cons_append, List.find?_cons]
    by_cases h : kv.1 = L
    · rw [if_pos h.symm]
      simp [h]
    · have h2 : ¬L = kv.1 := fun hh => h hh.symm
      rw [if_neg h2]
      simp [h]
      exact ih

theorem lastEmit_char (f : Nat → Option (Nat × FileEntry)) (L : Nat) :
    ∀ (n : Nat) (kv : Nat × FileEntry),
      (((List.range n).filterMap f).reverse.find? (fun kv => kv.1 = L) = some kv ↔
        (∃ i, i < n ∧ f i = some kv ∧ kv.1 = L ∧
          ∀ j kv', i < j → j < n → f j = some kv' → ¬kv'.1 = L)) := by
  intro n
  induction n with
  | zero =>
    intro kv
    simp
  | succ n ih =>
    intro kv
    rw [List.range_succ, List.filterMap_append, List.reverse_append]
    cases hf : f n with
    | none =>
      have hnil : List.filterMap f [n] = [] := by simp [List.filterMap_cons, hf]
      rw [hnil, List.reverse_nil, List.nil_append, ih kv]
      constructor
      · rintro ⟨i, hi, hfi, hkL, hall⟩
        refine ⟨i, by omega, hfi, hkL, fun j kv' hij hj hfj => ?_⟩
        rcases Nat.lt_succ_iff_lt_or_eq.mp hj with hj' | hj'
        · exact hall j kv' hij hj' hfj
        · subst hj'; rw [hf] at hfj; cases hfj
      · rintro ⟨i, hi, hfi, hkL, hall⟩
        have hi' : i < n := by
          rcases Nat.lt_succ_iff_lt_or_eq.mp hi with h | h
          · exact h
          · subst h; rw [hf] at hfi; cases hfi
        exact ⟨i, hi', hfi, hkL, fun j kv' hij hj hfj => hall j kv' hij (by omega) hfj⟩
    | some kv0 =>
      have hone : List.filterMap f [n] = [kv0] := by simp [List.filterMap_cons, hf]
      rw [hone]
      simp only [List.reverse_cons, List.reverse_nil, List.nil_append, List.cons_append,
        List.find?_cons]
      by_cases h0 : kv0.1 = L
      · simp only [h0, decide_True, if_true]
        constructor
        · intro h
          have hkv : kv0 = kv := by injection h
          subst hkv
          refine ⟨n, Nat.lt_succ_self n, hf, h0, fun j kv' hij hj _ => ?_⟩
          omega
        · rintro ⟨i, hi, hfi, hkL, hall⟩
          rcases Nat.lt_succ_iff_lt_or_eq.mp hi with h | h
          · exact absurd h0 (hall n kv0 h (Nat.lt_succ_self n) hf)
          · subst h
            rw [hf] at hfi
            injection hfi with hfi
            rw [hfi]
      · simp only [h0, decide_False, Bool.false_eq_true, if_false]
        rw [ih kv]
        constructor
        · rintro ⟨i, hi, hfi, hkL, hall⟩
          refine ⟨i, by omega, hfi, hkL, fun j kv' hij hj hfj => ?_⟩
          rcases Nat.lt_succ_iff_lt_or_eq.mp hj with hj' | hj'
          · exact hall j kv' hij hj' hfj
          · subst hj'
            rw [hf] at hfj
            injection hfj with hfj
            exact hfj ▸ h0
        · rintro ⟨i, hi, hfi, hkL, hall⟩
          have hi' : i < n := by
            rcases Nat.lt_succ_iff_lt_or_eq.mp hi with h | h
            · exact h
            · subst h
              rw [hf] at hfi
              injection hfi with hfi
              rw [hfi] at h0
              exact absurd hkL h0
          exact ⟨i, hi', hfi, hkL, fun j kv' hij hj hfj => hall j kv' hij (by omega) hfj⟩

theorem emitAt_some_elim (cfg : ScanCfg) (cs : List Str) (i L : Nat) (e : FileEntry)
    (h : emitAt cfg cs i = some (L, e)) :
    cfg.forbidden.contains e.path = false ∧ ¬i = 0 ∧ i < cs.length ∧
    ∃ left cur, cs[i - 1]? = some left ∧ cs[i]? = some cur ∧
      callEntry cfg.dir left cur = some (e.path, e.spacing) ∧ L = linePosAt cs i := by
  unfold emitAt at h
  by_cases h0 : i = 0
  · rw [if_pos h0] at h; cases h
  · rw [if_neg h0] at h
    cases hl : cs[i - 1]? with
    | none => simp only [hl] at h; exact Option.noConfusion h
    | some left =>
      cases hc : cs[i]? with
      | none => simp only [hl, hc] at h; exact Option.noConfusion h
      | some cur =>
        simp only [hl, hc] at h
        cases hce : callEntry cfg.dir left cur with
        | none => simp only [hce] at h; exact Option.noConfusion h
        | some psp =>
          obtain ⟨p, sp⟩ := psp
          simp only [hce] at h
          by_cases hf : cfg.forbidden.contains p = true
          · rw [if_pos hf] at h; cases h
          · rw [if_neg hf] at h
            injection h with h1
            injection h1 with h1 h2
            subst h1
            subst h2
            have hilen : i < cs.length := by
              by_contra hni
              rw [List.getElem?_eq_none (by omega)] at hc
              cases hc
            have hcon : cfg.forbidden.contains p = false := by
              cases hcon : cfg.forbidden.contains p
              · rfl
              · exact absurd hcon hf
            exact ⟨hcon, h0, hilen, left, cur, rfl, rfl, hce, rfl⟩

/-! ## Claim C4 — what scanning turns into pointers -/

/-- Counterexample to C4 as stated: (1) an occurrence of `include(` at the
very start of the content has a later `)`, is not preceded by any identifier
character and is not inside a comment, yet yields no pointer, because the
chunk before it is the empty string and the scan skips falsy `left` chunks;
(2) an occurrence inside a multi-line block comment (opener on an earlier
line) does yield a pointer, because the comment check only inspects the text
of the call's own line. -/
theorem claim_C4_cex :
    (scanContent ⟨strT ("include"), strT ("./app"), [], strT ("./app/i.js")⟩
      (strT ("include('./a.js')"))).files = [] ∧
    objGet (scanContent ⟨strT ("include"), strT ("./app"), [], strT ("./app/i.js")⟩
      (strT ("x\n/*\ninclude('./a.js')\n*/"))).files 3 =
      some ⟨strT ("./app/a.js"), 0⟩ := by
  constructor
  · decide
  · decide

/-- C4 (amended): splitting the content on `keyword(` makes occurrence `i`
the boundary between chunk `i-1` and chunk `i`; the scan's `files` object
maps line `L` to entry `e` exactly when some occurrence `i` emits `(L, e)` —
meaning its preceding chunk is nonempty, chunk `i` contains a later `)`, the
character right before the keyword is not an identifier character, the
argument up to the first `)` with quote characters stripped is nonempty and,
resolved against the node's directory, is not a forbidden path, and no `//`
or unclosed `/*` occurs on the call's own line before the call — and no
later occurrence emits an entry for the same line (later same-line
occurrences overwrite earlier ones). -/
theorem claim_C4 :
    ∀ (cfg : ScanCfg) (content : Str) (L : Nat) (e : FileEntry),
      objGet (scanContent cfg content).files L = some e ↔
        (∃ i, i < (splitOnL (cfg.tag ++ strT ("(")) content).length ∧
          emitAt cfg (splitOnL (cfg.tag ++ strT ("(")) content) i = some (L, e) ∧
          ∀ j kv', i < j → j < (splitOnL (cfg.tag ++ strT ("(")) content).length →
            emitAt cfg (splitOnL (cfg.tag ++ strT ("(")) content) j = some kv' →
              ¬kv'.1 = L) := by
  intro cfg content L e
  rw [scanContent_eq_fold]
  generalize splitOnL (cfg.tag ++ strT ("(")) content = cs
  have hch := (scanFold_char cfg cs).2.2.1
  rw [hch, objGet_setFold]
  unfold emissions
  constructor
  · intro h
    cases hf : ((List.range cs.length).filterMap (emitAt cfg cs)).reverse.find?
        (fun kv => kv.1 = L) with
    | none => rw [hf] at h; cases h
    | some kv =>
      rw [hf] at h
      injection h with h
      obtain ⟨i, hi, hfi, hkL, hall⟩ := (lastEmit_char (emitAt cfg cs) L cs.length kv).mp hf
      have hkv : kv = (L, e) := by
        obtain ⟨k1, k2⟩ := kv
        simp only [] at hkL h
        rw [hkL, h]
      rw [hkv] at hfi
      exact ⟨i, hi, hfi, hall⟩
  · rintro ⟨i, hi, hfi, hall⟩
    have hfind := (lastEmit_char (emitAt cfg cs) L cs.length (L, e)).mpr
      ⟨i, hi, hfi, rfl, hall⟩
    rw [hfind]
    rfl

/-! ## Claim C3 — cycle protection along the ancestor chain -/

/-- C3: a directive whose argument resolves into the node's ancestor-path
set (`#forbidden`) produces an inclusion-cycle error carrying the offending
path and line and never a pointer: every `files` entry holds a non-forbidden
path, and every otherwise-valid candidate that resolves to a forbidden path
contributes its error event to the error sink.  Diamond inclusion from two
different branches is permitted: the same content including `./shared.js`
yields the pointer under either sibling's ancestor set, while a node whose
ancestor set contains the resolved path gets only the error. -/
theorem claim_C3 :
    (∀ (cfg : ScanCfg) (content : Str) (L : Nat) (e : FileEntry),
      objGet (scanContent cfg content).files L = some e →
        cfg.forbidden.contains e.path = false) ∧
    (∀ (cfg : ScanCfg) (content : Str) (i : Nat) (left cur p : Str) (sp : Nat),
      (splitOnL (cfg.tag ++ strT ("(")) content)[i - 1]? = some left →
      (splitOnL (cfg.tag ++ strT ("(")) content)[i]? = some cur →
      ¬i = 0 →
      callEntry cfg.dir left cur = some (p, sp) →
      cfg.forbidden.contains p = true →
      (⟨cfg.selfPath, p, linePosAt (splitOnL (cfg.tag ++ strT ("(")) content) i⟩ : ScanErr) ∈
        (scanContent cfg content).errors) ∧
    ((scanContent ⟨strT ("include"), strT ("./app"), [strT ("./app/root.js")],
        strT ("./app/a.js")⟩ (strT ("q\ninclude('./shared.js')"))).files =
      [(2, ⟨strT ("./app/shared.js"), 0⟩)] ∧
     (scanContent ⟨strT ("include"), strT ("./app"),
        [strT ("./app/root.js"), strT ("./app/b.js")], strT ("./app/b.js")⟩
        (strT ("q\ninclude('./shared.js')"))).files =
      [(2, ⟨strT ("./app/shared.js"), 0⟩)] ∧
     (scanContent ⟨strT ("include"), strT ("./app"),
        [strT ("./app/root.js"), strT ("./app/shared.js")], strT ("./app/c.js")⟩
        (strT ("q\ninclude('./shared.js')"))).files = [] ∧
     (scanContent ⟨strT ("include"), strT ("./app"),
        [strT ("./app/root.js"), strT ("./app/shared.js")], strT ("./app/c.js")⟩
        (strT ("q\ninclude('./shared.js')"))).errors =
      [⟨strT ("./app/c.js"), strT ("./app/shared.js"), 2⟩]) := by
  refine ⟨?_, ?_, ?_⟩
  · intro cfg content L e h
    rw [scanContent_eq_fold] at h
    have hch := (scanFold_char cfg (splitOnL (cfg.tag ++ strT ("(")) content)).2.2.1
    rw [hch, objGet_setFold] at h
    cases hf : ((emissions cfg (splitOnL (cfg.tag ++ strT ("(")) content)).reverse.find?
        (fun kv => kv.1 = L)) with
    | none => rw [hf] at h; cases h
    | some kv =>
      rw [hf] at h
      injection h with h
      have hmem : kv ∈ emissions cfg (splitOnL (cfg.tag ++ strT ("(")) content) := by
        have := List.mem_of_find?_eq_some hf
        exact (List.mem_reverse).mp this
      unfold emissions at hmem
      obtain ⟨i, _, hemit⟩ := List.mem_filterMap.mp hmem
      have hkv : kv = (kv.1, kv.2) := rfl
      rw [hkv] at hemit
      have helim := emitAt_some_elim cfg _ i kv.1 kv.2 hemit
      have he : kv.2 = e := h
      rw [he] at helim
      exact helim.1
  · intro cfg content i left cur p sp hl hc h0 hce hforb
    rw [scanContent_eq_fold]
    have hch := (scanFold_char cfg (splitOnL (cfg.tag ++ strT ("(")) content)).2.2.2.2
    rw [hch]
    have hcy : cycleAt cfg (splitOnL (cfg.tag ++ strT ("(")) content) i =
        some ⟨cfg.selfPath, p, linePosAt (splitOnL (cfg.tag ++ strT ("(")) content) i⟩ := by
      unfold cycleAt
      rw [if_neg h0]
      simp only [hl, hc, hce]
      rw [if_pos hforb]
    have hilen : i < (splitOnL (cfg.tag ++ strT ("(")) content).length := by
      by_contra hni
      rw [List.getElem?_eq_none (by omega)] at hc
      cases hc
    exact List.mem_filterMap.mpr ⟨i, List.mem_range.mpr hilen, hcy⟩
  · refine ⟨by decide, by decide, by decide, by decide⟩

/-- Witness for C3 at concrete data: the forbidden resolved path produces
exactly the cycle error event with its path and line. -/
theorem claim_C3_witness :
    (⟨strT ("./app/c.js"), strT ("./app/shared.js"),
      linePosAt (splitOnL ((strT ("include")) ++ strT ("(")) (strT ("q\ninclude('./shared.js')"))) 1⟩ : ScanErr) ∈
      (scanContent ⟨strT ("include"), strT ("./app"),
        [strT ("./app/root.js"), strT ("./app/shared.js")], strT ("./app/c.js")⟩
        (strT ("q\ninclude('./shared.js')"))).errors :=
  claim_C3.2.1 ⟨strT ("include"), strT ("./app"),
      [strT ("./app/root.js"), strT ("./app/shared.js")], strT ("./app/c.js")⟩
    (strT ("q\ninclude('./shared.js')")) 1 (strT ("q\n")) (strT ("'./shared.js')"))
    (strT ("./app/shared.js")) 0 (by decide) (by decide) (by decide) (by decide) (by decide)

/-! ## Claim C6 — the total-line count embedded in boundary markers -/

theorem firstSplit_here (sep rest : Str) (hs : ¬sep = []) :
    firstSplit sep (sep ++ rest) = some ([], rest) := by
  cases sep with
  | nil => exact absurd rfl hs
  | cons c s' =>
    show firstSplit (c :: s') (c :: (s' ++ rest)) = some ([], rest)
    rw [firstSplit]
    rw [if_pos (show (c :: s').isPrefixOf (c :: (s' ++ rest)) = true from
      List.isPrefixOf_iff_prefix.mpr ⟨rest, rfl⟩)]
    rw [List.length_cons, List.drop_succ_cons, List.drop_left]

theorem contains_middle (sep x y : Str) (hs : ¬sep = []) :
    containsSub sep (x ++ (sep ++ y)) = true := by
  induction x with
  | nil =>
    rw [List.nil_append]
    unfold containsSub
    rw [firstSplit_here sep y hs]
    rfl
  | cons d x' ih =>
    unfold containsSub at ih ⊢
    rw [List.cons_append, firstSplit]
    by_cases hp : sep.isPrefixOf (d :: (x' ++ (sep ++ y))) = true
    · rw [if_pos hp]; rfl
    · rw [if_neg hp]
      cases hf : firstSplit sep (x' ++ (sep ++ y)) with
      | none => rw [hf] at ih; exact absurd ih (by decide)
      | some p =>
        obtain ⟨b, a⟩ := p
        simp only [hf]
        rfl

theorem firstSplit_skip (c : Char) (s' a l : Str) (hc : c ∉ a) :
    firstSplit (c :: s') (a ++ l) =
      (firstSplit (c :: s') l).map (fun p => (a ++ p.1, p.2)) := by
  induction a with
  | nil =>
    rw [List.nil_append]
    cases h : firstSplit (c :: s') l with
    | none => rfl
    | some p => rfl
  | cons d a' ih =>
    have hcd : ¬c = d := by
      intro h
      exact hc (h ▸ List.mem_cons_self d a')
    have hd : ¬((c :: s').isPrefixOf (d :: (a' ++ l)) = true) := by
      intro hpf
      obtain ⟨t, ht⟩ := List.isPrefixOf_iff_prefix.mp hpf
      rw [List.cons_append] at ht
      injection ht with h1 _
      exact hcd h1
    rw [List.cons_append, firstSplit, if_neg hd,
      ih (fun h => hc (List.mem_cons_of_mem d h))]
    cases h : firstSplit (c :: s') l with
    | none => rfl
    | some p => rfl

theorem firstSplit_decomp (sep : Str) :
    ∀ (l b a : Str), firstSplit sep l = some (b, a) → l = b ++ sep ++ a := by
  intro l
  induction l with
  | nil => intro b a h; cases h
  | cons c rest ih =>
    intro b a h
    rw [firstSplit] at h
    by_cases hp : sep.isPrefixOf (c :: rest) = true
    · rw [if_pos hp] at h
      injection h with h
      injection h with h1 h2
      obtain ⟨t, ht⟩ := List.isPrefixOf_iff_prefix.mp hp
      subst h1
      subst h2
      rw [List.nil_append, ← ht, List.drop_left]
    · rw [if_neg hp] at h
      cases hf : firstSplit sep rest with
      | none => rw [hf] at h; cases h
      | some p =>
        obtain ⟨b', a'⟩ := p
        rw [hf] at h
        injection h with h
        injection h with h1 h2
        subst h1
        subst h2
        rw [ih b' a' hf]
        rfl

theorem firstSplit_none_of_char (sep l : Str) (c : Char) (hc : c ∈ sep) (hl : c ∉ l) :
    firstSplit sep l = none := by
  cases h : firstSplit sep l with
  | none => rfl
  | some p =>
    obtain ⟨b, a⟩ := p
    have hd := firstSplit_decomp sep l b a h
    have hmem : c ∈ l := by
      rw [hd]
      exact List.mem_append.mpr (Or.inl (List.mem_append.mpr (Or.inr hc)))
    exact absurd hmem hl

theorem splitOnAux_fuel_eq (sep : Str) (hs : ¬sep = []) :
    ∀ (fuelA fuelB : Nat) (l : Str), l.length < fuelA → l.length < fuelB →
      splitOnAux sep fuelA l = splitOnAux sep fuelB l := by
  intro fuelA
  induction fuelA with
  | zero => intro fuelB l h1 _; exact absurd h1 (Nat.not_lt_zero _)
  | succ k ih =>
    intro fuelB l h1 h2
    cases fuelB with
    | zero => exact absurd h2 (Nat.not_lt_zero _)
    | succ m =>
      rw [splitOnAux, splitOnAux]
      cases hf : firstSplit sep l with
      | none => rfl
      | some p =>
        obtain ⟨b, a⟩ := p
        simp only [hf]
        have hd := firstSplit_decomp sep l b a hf
        have hsl : 0 < sep.length := List.length_pos.mpr hs
        have hlen : a.length < l.length := by
          have hln := congrArg List.length hd
          simp only [List.length_append] at hln
          omega
        exact congrArg (fun t => b :: t) (ih m a (by omega) (by omega))

theorem splitOn_cons (sep l b a : Str) (hs : ¬sep = []) (h : firstSplit sep l = some (b, a)) :
    splitOnL sep l = b :: splitOnL sep a := by
  unfold splitOnL
  rw [splitOnAux]
  simp only [h]
  have hd := firstSplit_decomp sep l b a h
  have hsl : 0 < sep.length := List.length_pos.mpr hs
  have hlen : a.length < l.length := by
    have hln := congrArg List.length hd
    simp only [List.length_append] at hln
    omega
  exact congrArg (fun t => b :: t)
    (splitOnAux_fuel_eq sep hs l.length (a.length + 1) a hlen (by omega))

theorem splitOn_none (sep l : Str) (h : firstSplit sep l = none) :
    splitOnL sep l = [l] := by
  unfold splitOnL
  rw [splitOnAux]
  simp only [h]

theorem natDigitsAux_mem (fuel : Nat) :
    ∀ (n : Nat) (c : Char), c ∈ natDigitsAux fuel n →
      ∃ d, d < 10 ∧ c = Char.ofNat (48 + d) := by
  induction fuel with
  | zero => intro n c h; simp [natDigitsAux] at h
  | succ f ih =>
    intro n c h
    rw [natDigitsAux] at h
    by_cases hn : n < 10
    · rw [if_pos hn] at h
      exact ⟨n, hn, List.mem_singleton.mp h⟩
    · rw [if_neg hn] at h
      rcases List.mem_append.mp h with h1 | h2
      · exact ih (n / 10) c h1
      · exact ⟨n % 10, Nat.mod_lt n (by omega), List.mem_singleton.mp h2⟩

theorem natToStr_no_special (n : Nat) (c : Char) (h : c ∈ natToStr n) :
    ¬c = ' ' ∧ ¬c = '|' ∧ ¬c = '\n' ∧ ¬c = '/' := by
  obtain ⟨d, hd, hc⟩ := natDigitsAux_mem (n + 1) n c h
  subst hc
  interval_cases d <;> exact (by decide)

theorem digits_toNat (d : Nat) (hd : d < 10) : (Char.ofNat (48 + d)).toNat = 48 + d := by
  interval_cases d <;> decide

theorem parseNat_fold (fuel : Nat) :
    ∀ (n acc : Nat), n < fuel →
      (natDigitsAux fuel n).foldl (fun a c => a * 10 + (c.toNat - 48)) acc =
        acc * 10 ^ (natDigitsAux fuel n).length + n := by
  induction fuel with
  | zero => intro n acc h; exact absurd h (Nat.not_lt_zero _)
  | succ f ih =>
    intro n acc h
    rw [natDigitsAux]
    by_cases hn : n < 10
    · rw [if_pos hn]
      simp only [List.foldl_cons, List.foldl_nil, List.length_singleton, pow_one,
        digits_toNat n hn]
      omega
    · rw [if_neg hn]
      have hdiv : n / 10 < f := by
        have := Nat.div_lt_self (show 0 < n by omega) (show 1 < 10 by omega)
        omega
      rw [List.foldl_append, ih (n / 10) acc hdiv]
      simp only [List.foldl_cons, List.foldl_nil, List.length_append,
        List.length_singleton, digits_toNat (n % 10) (Nat.mod_lt n (by omega))]
      rw [pow_succ, ← mul_assoc]
      have hdm := Nat.div_add_mod n 10
      generalize acc * 10 ^ (natDigitsAux f (n / 10)).length = X
      omega

theorem parseNat_natToStr (n : Nat) : parseNatD (natToStr n) = n := by
  unfold parseNatD natToStr
  rw [parseNat_fold (n + 1) n 0 (by omega)]
  simp

theorem firstSplit_at_sep (c : Char) (s' a rest : Str) (hc : c ∉ a) :
    firstSplit (c :: s') (a ++ ((c :: s') ++ rest)) = some (a, rest) := by
  rw [firstSplit_skip c s' a ((c :: s') ++ rest) hc,
    firstSplit_here (c :: s') rest (by simp)]
  simp

theorem firstSplit_sepBar (a rest : Str) (hc : ' ' ∉ a) :
    firstSplit (strT (" | ")) (a ++ (strT (" | ") ++ rest)) = some (a, rest) := by
  have hsep : strT (" | ") = ' ' :: strT ("| ") := by decide
  rw [hsep]
  exact firstSplit_at_sep ' ' (strT ("| ")) a rest hc

theorem headSplit_digits (n : Nat) :
    parseNatD ((splitOnL (strT (" ")) (natToStr n ++ strT (" LINES _//"))).headD []) = n := by
  have hb : strT (" LINES _//") = strT (" ") ++ strT ("LINES _//") := by decide
  have hsp : ' ' ∉ natToStr n := fun h => (natToStr_no_special n ' ' h).1 rfl
  have h1 : firstSplit (strT (" ")) (natToStr n ++ strT (" LINES _//")) =
      some (natToStr n, strT ("LINES _//")) := by
    rw [hb]
    have hsep : strT (" ") = ' ' :: ([] : Str) := by decide
    rw [hsep]
    exact firstSplit_at_sep ' ' [] (natToStr n) (strT ("LINES _//")) hsp
  rw [splitOn_cons _ _ _ _ (by decide) h1]
  simp only [List.headD_cons]
  exact parseNat_natToStr n

theorem boundary_start_eval (name path D : Str)
    (hn : ' ' ∉ name) (hp : ' ' ∉ path) (hD : '|' ∉ D)
    (h1 : firstSplit (strT ("//_ START_FILE | "))
        (name ++ (strT (" | ") ++ (path ++ (strT (" | ") ++
          (D ++ strT (" LINES _//")))))) = none) :
    boundary_statement (strT ("//_ START_FILE | ") ++ (name ++ (strT (" | ") ++ (path ++
        (strT (" | ") ++ (D ++ strT (" LINES _//"))))))) =
      some [strT ("START"), name, path, D ++ strT (" LINES _//")] := by
  have hne : ¬strT ("//_ START_FILE | ") = ([] : Str) := by decide
  have hstartPre : containsSub (strT ("//_ START_FILE | "))
      (strT ("//_ START_FILE | ") ++ (name ++ (strT (" | ") ++ (path ++
        (strT (" | ") ++ (D ++ strT (" LINES _//"))))))) = true := by
    unfold containsSub
    rw [firstSplit_here _ _ hne]
    rfl
  have hendCheck : containsSub (strT (" LINES _//"))
      (strT ("//_ START_FILE | ") ++ (name ++ (strT (" | ") ++ (path ++
        (strT (" | ") ++ (D ++ strT (" LINES _//"))))))) = true := by
    have h := contains_middle (strT (" LINES _//"))
      (strT ("//_ START_FILE | ") ++ (name ++ (strT (" | ") ++ (path ++
        (strT (" | ") ++ D))))) [] (by decide)
    simpa [List.append_assoc] using h
  have hsplitS : splitOnL (strT ("//_ START_FILE | "))
      (strT ("//_ START_FILE | ") ++ (name ++ (strT (" | ") ++ (path ++
        (strT (" | ") ++ (D ++ strT (" LINES _//"))))))) =
      [[], name ++ (strT (" | ") ++ (path ++ (strT (" | ") ++
        (D ++ strT (" LINES _//")))))] := by
    rw [splitOn_cons _ _ _ _ hne (firstSplit_here _ _ hne), splitOn_none _ _ h1]
  have hnone4 : firstSplit (strT (" | ")) (D ++ strT (" LINES _//")) = none := by
    refine firstSplit_none_of_char _ _ '|' (by decide) ?_
    intro h
    rcases List.mem_append.mp h with h1 | h2
    · exact hD h1
    · exact absurd h2 (by decide)
  simp only [boundary_statement]
  rw [hstartPre, hendCheck]
  rw [if_pos ⟨by rw [Bool.true_or], rfl⟩]
  rw [if_pos rfl]
  rw [hsplitS]
  simp only [List.getD_cons_succ, List.getD_cons_zero]
  have hs2 : strT ("START | ") = strT ("START") ++ strT (" | ") := by decide
  rw [hs2, List.append_assoc]
  rw [splitOn_cons _ _ _ _ (by decide)
    (firstSplit_sepBar (strT ("START")) _ (by decide))]
  rw [splitOn_cons _ _ _ _ (by decide) (firstSplit_sepBar name _ hn)]
  rw [splitOn_cons _ _ _ _ (by decide) (firstSplit_sepBar path _ hp)]
  rw [splitOn_none _ _ hnone4]

theorem boundary_end_eval (name path D : Str)
    (hn : ' ' ∉ name) (hp : ' ' ∉ path) (hD : '|' ∉ D)
    (h0 : firstSplit (strT ("//_ START_FILE | "))
        (strT ("//_ END_FILE | ") ++ (name ++ (strT (" | ") ++ (path ++ (strT (" | ") ++
          (D ++ strT (" LINES _//"))))))) = none)
    (h1 : firstSplit (strT ("//_ END_FILE | "))
        (name ++ (strT (" | ") ++ (path ++ (strT (" | ") ++
          (D ++ strT (" LINES _//")))))) = none) :
    boundary_statement (strT ("//_ END_FILE | ") ++ (name ++ (strT (" | ") ++ (path ++
        (strT (" | ") ++ (D ++ strT (" LINES _//"))))))) =
      some [strT ("END"), name, path, D ++ strT (" LINES _//")] := by
  have hne : ¬strT ("//_ END_FILE | ") = ([] : Str) := by decide
  have hstartPre : containsSub (strT ("//_ START_FILE | "))
      (strT ("//_ END_FILE | ") ++ (name ++ (strT (" | ") ++ (path ++
        (strT (" | ") ++ (D ++ strT (" LINES _//"))))))) = false := by
    unfold containsSub
    rw [h0]
    rfl
  have hendPre : containsSub (strT ("//_ END_FILE | "))
      (strT ("//_ END_FILE | ") ++ (name ++ (strT (" | ") ++ (path ++
        (strT (" | ") ++ (D ++ strT (" LINES _//"))))))) = true := by
    unfold containsSub
    rw [firstSplit_here _ _ hne]
    rfl
  have hendCheck : containsSub (strT (" LINES _//"))
      (strT ("//_ END_FILE | ") ++ (name ++ (strT (" | ") ++ (path ++
        (strT (" | ") ++ (D ++ strT (" LINES _//"))))))) = true := by
    have h := contains_middle (strT (" LINES _//"))
      (strT ("//_ END_FILE | ") ++ (name ++ (strT (" | ") ++ (path ++
        (strT (" | ") ++ D))))) [] (by decide)
    simpa [List.append_assoc] using h
  have hsplitS : splitOnL (strT ("//_ END_FILE | "))
      (strT ("//_ END_FILE | ") ++ (name ++ (strT (" | ") ++ (path ++
        (strT (" | ") ++ (D ++ strT (" LINES _//"))))))) =
      [[], name ++ (strT (" | ") ++ (path ++ (strT (" | ") ++
        (D ++ strT (" LINES _//")))))] := by
    rw [splitOn_cons _ _ _ _ hne (firstSplit_here _ _ hne), splitOn_none _ _ h1]
  have hnone4 : firstSplit (strT (" | ")) (D ++ strT (" LINES _//")) = none := by
    refine firstSplit_none_of_char _ _ '|' (by decide) ?_
    intro h
    rcases List.mem_append.mp h with h1 | h2
    · exact hD h1
    · exact absurd h2 (by decide)
  simp only [boundary_statement]
  rw [hstartPre, hendPre, hendCheck]
  rw [if_pos ⟨by rw [Bool.false_or], rfl⟩]
  rw [if_neg (by decide)]
  rw [hsplitS]
  simp only [List.getD_cons_succ, List.getD_cons_zero]
  have hs2 : strT ("END | ") = strT ("END") ++ strT (" | ") := by decide
  rw [hs2, List.append_assoc]
  rw [splitOn_cons _ _ _ _ (by decide)
    (firstSplit_sepBar (strT ("END")) _ (by decide))]
  rw [splitOn_cons _ _ _ _ (by decide) (firstSplit_sepBar name _ hn)]
  rw [splitOn_cons _ _ _ _ (by decide) (firstSplit_sepBar path _ hp)]
  rw [splitOn_none _ _ hnone4]

/-- C6: for every raw content string, the `<total_lines>` value embedded in
both the START_FILE and END_FILE boundary markers wrapped around that content
equals the number of newline characters in the raw content plus 3: the wrapped
content consists of the two markers around the raw content, the compiler-side
marker parser recovers `START`/`END`, the file name, the path, and the line
field from each marker, and the numeric extraction used by the position mapper
(`+boundary[3].split(' ')[0]`) returns exactly `newline count + 3` for both.
The file name and path are assumed to contain no space and not to reproduce a
marker keyword, so that the marker fields split back unambiguously. -/
theorem claim_C6 :
    ∀ (name path content : Str),
      ' ' ∉ name → ' ' ∉ path →
      firstSplit (strT ("//_ START_FILE | "))
        (name ++ strT (" | ") ++ path ++ strT (" | ") ++
          natToStr (totalLinesOf content) ++ strT (" LINES _//")) = none →
      firstSplit (strT ("//_ END_FILE | "))
        (name ++ strT (" | ") ++ path ++ strT (" | ") ++
          natToStr (totalLinesOf content) ++ strT (" LINES _//")) = none →
      firstSplit (strT ("//_ START_FILE | "))
        (endMarker name path (totalLinesOf content)) = none →
      wrapContent name path content =
        startMarker name path (nlCount content + 3) ++ strT ("\n") ++ content ++
          strT ("\n") ++ endMarker name path (nlCount content + 3) ∧
      boundary_statement (startMarker name path (totalLinesOf content)) =
        some [strT ("START"), name, path,
          natToStr (nlCount content + 3) ++ strT (" LINES _//")] ∧
      boundary_statement (endMarker name path (totalLinesOf content)) =
        some [strT ("END"), name, path,
          natToStr (nlCount content + 3) ++ strT (" LINES _//")] ∧
      boundaryTotal [strT ("START"), name, path,
          natToStr (nlCount content + 3) ++ strT (" LINES _//")] = nlCount content + 3 ∧
      boundaryTotal [strT ("END"), name, path,
          natToStr (nlCount content + 3) ++ strT (" LINES _//")] = nlCount content + 3 := by
  intro name path content hn hp h3 h4 h5
  have hD : '|' ∉ natToStr (nlCount content + 3) :=
    fun h => ((natToStr_no_special _ '|' h).2.1) rfl
  simp only [totalLinesOf, List.append_assoc] at h3 h4
  simp only [endMarker, totalLinesOf, List.append_assoc] at h5
  refine ⟨rfl, ?_, ?_, ?_, ?_⟩
  · have h := boundary_start_eval name path (natToStr (nlCount content + 3)) hn hp hD h3
    simpa only [startMarker, totalLinesOf, List.append_assoc] using h
  · have h := boundary_end_eval name path (natToStr (nlCount content + 3)) hn hp hD h5 h4
    simpa only [endMarker, totalLinesOf, List.append_assoc] using h
  · simp only [boundaryTotal, List.getD_cons_succ, List.getD_cons_zero]
    exact headSplit_digits (nlCount content + 3)
  · simp only [boundaryTotal, List.getD_cons_succ, List.getD_cons_zero]
    exact headSplit_digits (nlCount content + 3)

/-- Witness for C6 at a concrete file: the start marker for a two-line
content parses back, and the extracted line count is its newline count plus
three. -/
theorem claim_C6_witness :
    boundary_statement (startMarker (strT ("a.js")) (strT ("./a.js"))
        (totalLinesOf (strT ("x\ny")))) =
      some [strT ("START"), strT ("a.js"), strT ("./a.js"),
        natToStr (nlCount (strT ("x\ny")) + 3) ++ strT (" LINES _//")] ∧
    boundaryTotal [strT ("START"), strT ("a.js"), strT ("./a.js"),
        natToStr (nlCount (strT ("x\ny")) + 3) ++ strT (" LINES _//")] =
      nlCount (strT ("x\ny")) + 3 :=
  ⟨(claim_C6 (strT ("a.js")) (strT ("./a.js")) (strT ("x\ny")) (by decide) (by decide)
      (by decide) (by decide) (by decide)).2.1,
   (claim_C6 (strT ("a.js")) (strT ("./a.js")) (strT ("x\ny")) (by decide) (by decide)
      (by decide) (by decide) (by decide)).2.2.2.1⟩
